import Mathlib

/-!
Verification of `src/parser/parser.cpp` of the chess_db repository: the
Polyglot record post-processing pipeline (`sort_by_frequency`, `make_book`),
the book writer (`write_poly_file`), the probe (`probe_key`), the result
decoder (`get_result`), the SAN replayer (`parse_game`) and the PGN
state-machine driver (`parse_pgn`).

Machine integers are modelled as `Nat`; every place where a C++ fixed-width
computation could wrap is noted at the definition.
-/

/-! ## Data model -/

/-- Polyglot record, four fields, cf. spec section 3 and `book.h`
(`struct PolyEntry`).  In the C++ code `key` is `uint64_t`, `move` and
`weight` are `uint16_t` and `learn` is `uint32_t`; records produced by the
program always fit those widths so we model the fields as `Nat`. -/
structure PolyEntry where
  key : Nat
  move : Nat
  weight : Nat
  learn : Nat
deriving DecidableEq, Repr, Inhabited

/-- Modelled from the spec: `PolyEntry::operator<` (declared in `book.h`,
which is not part of the sources) compares lexicographically by
`(key, move, weight, learn)` (spec section 3: "Ordering: `PolyEntry`
compares lexicographically by `(key, move, weight, learn)`").
`pleLe a b` is the corresponding reflexive order `¬ (b < a)`, the order in
which `std::sort(kTable.begin(), kTable.end())` leaves the table. -/
def pleLe (a b : PolyEntry) : Prop :=
  a.key < b.key ∨ (a.key = b.key ∧
    (a.move < b.move ∨ (a.move = b.move ∧
      (a.weight < b.weight ∨ (a.weight = b.weight ∧ a.learn ≤ b.learn)))))

instance : DecidableRel pleLe := fun a b => by unfold pleLe; infer_instance

instance : IsTotal PolyEntry pleLe where
  total a b := by unfold pleLe; omega

instance : IsTrans PolyEntry pleLe where
  trans a b c := by unfold pleLe; omega

/-- The comparator given to `std::sort` inside `sort_by_frequency`
(parser.cpp lines 218-223): `a.weight > b.weight || (a.weight == b.weight
&& a.move > b.move)`, read as a reflexive total order (descending weight,
ties descending move).  Entries equal under this order but with different
`learn` may appear in any relative order in C++ (`std::sort` is unstable);
every property proved below is invariant under permuting such ties. -/
def wmGe (a b : PolyEntry) : Prop :=
  b.weight < a.weight ∨ (a.weight = b.weight ∧ b.move ≤ a.move)

instance : DecidableRel wmGe := fun a b => by unfold wmGe; infer_instance

instance : IsTotal PolyEntry wmGe where
  total a b := by unfold wmGe; omega

instance : IsTrans PolyEntry wmGe where
  trans a b c := by unfold wmGe; omega

/-- Record of the table at index `i` (C++ `kTable[i]`); out-of-range
indices, never dereferenced by the modelled loops, give a zero entry. -/
def ent (t : List PolyEntry) (i : Nat) : PolyEntry :=
  t.getD i ⟨0, 0, 0, 0⟩

/-- Contiguous segment `[a, b)` of the table. -/
def seg (t : List PolyEntry) (a b : Nat) : List PolyEntry :=
  (t.drop a).take (b - a)

/-! ## `sort_by_frequency` and the `make_book` post-processing loop -/

/-- Re-weighting of one entry of the run `mid` of length `len`:
`kTable[i].weight = moves[kTable[i].move] * 0xFFFF / (end - start)`
(parser.cpp line 216), where `moves[m]` counts occurrences of move `m`
in the run.  The C++ multiplication is `int`; it does not wrap for the
run lengths the program is designed for, so we use exact `Nat` division. -/
def reweight (mid : List PolyEntry) (len : Nat) (e : PolyEntry) : PolyEntry :=
  { e with weight := (mid.countP (fun y => y.move == e.move)) * 0xFFFF / len }

/-- `sort_by_frequency(kTable, start, end)` (parser.cpp lines 207-226):
counts the moves of the records in `[start, end)`, replaces each weight in
the range by `count * 0xFFFF / (end - start)`, and sorts the range by the
descending `(weight, move)` comparator.  The function returns `end`, which
the caller assigns back to its unchanged loop index, so only the table
effect is modelled. -/
def sort_by_frequency (l : List PolyEntry) (s e : Nat) : List PolyEntry :=
  let mid := (l.drop s).take (e - s)
  let mid2 := mid.map (reweight mid (e - s))
  l.take s ++ List.insertionSort wmGe mid2 ++ l.drop e

/-- The `make_book` per-run pass (parser.cpp lines 721-730):
`for (idx = 1; idx < size; ++idx) if (key[idx] != key[idx-1]) { if (idx -
last > 2) idx = sort_by_frequency(kTable, last, idx); last = idx; }`.
`fuel` bounds the number of iterations; `make_book_post` supplies enough
for the whole table.  (`uniqueKeys` is statistics only and is not
modelled.) -/
def bookLoop : Nat → List PolyEntry → Nat → Nat → List PolyEntry
  | 0, t, _, _ => t
  | fuel + 1, t, idx, last =>
    if idx < t.length then
      if (ent t idx).key ≠ (ent t (idx - 1)).key then
        bookLoop fuel (if idx - last > 2 then sort_by_frequency t last idx else t) (idx + 1) idx
      else
        bookLoop fuel t (idx + 1) last
    else t

/-- `make_book` post-processing (parser.cpp lines 719-730): full
lexicographic `std::sort` of the record table followed by the per-run
re-weighting pass. -/
def make_book_post (t : List PolyEntry) : List PolyEntry :=
  let s := List.insertionSort pleLe t
  bookLoop s.length s 1 0

/-! ## `write` and `write_poly_file` -/

/-- Big-endian byte serialisation of a `w`-byte integer (parser.cpp
lines 169-175: `for (i = 8*(sizeof(T)-1); i >= 0; i -= 8) *data++ =
uint8_t(n >> i)`). -/
def writeBytes (w n : Nat) : List Nat :=
  (List.range w).map (fun i => (n >>> (8 * (w - 1 - i))) % 256)

/-- Serialisation of one record (parser.cpp lines 177-183): `key` on 8
bytes, `move` on 2, `weight` on 2, `learn` on 4, all big-endian; the
field widths are those of `book.h` as stated in spec section 3. -/
def serializeEntry (e : PolyEntry) : List Nat :=
  writeBytes 8 e.key ++ writeBytes 2 e.move ++ writeBytes 2 e.weight ++ writeBytes 4 e.learn

/-- Modelled from the spec: `PolyEntry()` (the `dummy` of parser.cpp line
191) value-initialises the plain four-field record of spec section 3,
hence zeroes every field. -/
def dummyEntry : PolyEntry := ⟨0, 0, 0, 0⟩

/-- The entries actually written by the `write_poly_file` loop
(parser.cpp lines 194-200): an entry is written (and becomes `prev`) iff
`e.key != prev->key || e.move != prev->move || full`, where `prev` starts
at the zero dummy. -/
def keptEntries (prev : PolyEntry) (full : Bool) : List PolyEntry → List PolyEntry
  | [] => []
  | e :: rest =>
    if e.key ≠ prev.key ∨ e.move ≠ prev.move ∨ full = true then
      e :: keptEntries e full rest
    else
      keptEntries prev full rest

/-- Byte content of the `.bin` file produced by `write_poly_file`
(parser.cpp lines 185-205). -/
def write_poly_file (t : List PolyEntry) (full : Bool) : List Nat :=
  ((keptEntries dummyEntry full t).map serializeEntry).flatten

/-- Reference for the amended C4: keep the first record of each maximal
group of consecutive records with identical `(key, move)`. -/
def collapseRuns : List PolyEntry → List PolyEntry
  | [] => []
  | e :: rest =>
    e :: collapseRuns (rest.dropWhile (fun x => x.key == e.key && x.move == e.move))
termination_by l => l.length
decreasing_by
  simpa using Nat.lt_succ_of_le (List.dropWhile_sublist _).length_le

/-! ## `probe_key` -/

/-- The record delivered by `read_entry` once the stream is at end of
file: every `ifs.get()` returns `-1`, so a `w`-byte field decodes to
`2^(8w) - (2^(8w) - 1)/255` (`0xFEFE…FF` pattern); see parser.cpp lines
152-157. -/
def eofEntry : PolyEntry := ⟨0xFEFEFEFEFEFEFEFF, 0xFEFF, 0xFEFF, 0xFEFEFEFF⟩

/-- Decoded PGN offset of a record: `(e.learn & 0x3FFFFFFF) << 3`
(parser.cpp line 787). -/
def decodeOfs (e : PolyEntry) : Nat :=
  (e.learn &&& 0x3FFFFFFF) <<< 3

/-- Result bucket of a record: `(e.learn >> 30) & 3` (parser.cpp line
792). -/
def bucketOf (e : PolyEntry) : Nat :=
  (e.learn >>> 30) &&& 3

/-- Per-result-bucket counters `results[4]` of `probe_key`. -/
structure Buckets where
  b0 : Nat
  b1 : Nat
  b2 : Nat
  b3 : Nat
deriving DecidableEq, Repr, Inhabited

def Buckets.zero : Buckets := ⟨0, 0, 0, 0⟩

/-- `results[(e.learn >> 30) & 3]++`. -/
def Buckets.bump (r : Buckets) (i : Nat) : Buckets :=
  match i with
  | 0 => { r with b0 := r.b0 + 1 }
  | 1 => { r with b1 := r.b1 + 1 }
  | 2 => { r with b2 := r.b2 + 1 }
  | _ => { r with b3 := r.b3 + 1 }

def Buckets.total (r : Buckets) : Nat := r.b0 + r.b1 + r.b2 + r.b3

/-- One JSON object of `probe_key`'s output, numerically: the group's
move, the weight of the group's first record, the result buckets and the
collected PGN offsets.  (The textual JSON rendering is not modelled.) -/
structure GroupOut where
  move : Nat
  weight : Nat
  buckets : Buckets
  offsets : List Nat
deriving DecidableEq, Repr, Inhabited

/-- The inner `do … while (e.move == move)` loop of `probe_key`
(parser.cpp lines 785-795).  `e` is the record already read; the stream
holds the records not yet read, a read past its end yielding `eofEntry`.
Returns the extended offset list and buckets, the first record whose
`move` differs (read but not processed) and the remaining stream.
When the stream is exhausted and `eofEntry.move` equals the group's move
the C++ loop would re-read `eofEntry` forever; the model stops there
instead, and every theorem below assumes record moves differ from
`eofEntry.move`, keeping that corner unreachable. -/
def probeGroup (mv limit : Nat) :
    Nat → List Nat → Buckets → PolyEntry → List PolyEntry →
    List Nat × Buckets × PolyEntry × List PolyEntry
  | skipc, offs, res, e, stream =>
    let offs' := if skipc = 0 ∧ offs.length < limit then offs ++ [decodeOfs e] else offs
    let skipc' := skipc - 1
    let res' := res.bump (bucketOf e)
    match stream with
    | [] => (offs', res', eofEntry, [])
    | e2 :: rest =>
      if e2.move = mv then probeGroup mv limit skipc' offs' res' e2 rest
      else (offs', res', e2, rest)

/-- The outer `do … while (key == e.key)` loop of `probe_key`
(parser.cpp lines 778-820).  `key` is the key of the very first record
read; each iteration forms one move group starting at the current record
`e` and continues while the next unprocessed record still has `key`.
`fuel` bounds the iteration count (the C++ loop can only diverge in the
`eofEntry` corner excluded above). -/
def probeOuter (limit skip key : Nat) :
    Nat → PolyEntry → List PolyEntry → List GroupOut
  | 0, _, _ => []
  | fuel + 1, e, stream =>
    let out := probeGroup e.move limit skip [] Buckets.zero e stream
    let g : GroupOut := ⟨e.move, e.weight, out.2.1, out.1⟩
    if key = out.2.2.1.key then g :: probeOuter limit skip key fuel out.2.2.1 out.2.2.2
    else [g]

/-- `probe_key` (parser.cpp lines 762-823) on the list of records found
in the book file from byte offset `ofs` on: reads the first record, takes
its key as the probed key, and runs the grouping loop.  An empty list
models a probe at end of file, on which the C++ code would spin on
`eofEntry`; no theorem touches that case. -/
def probe_key (limit skip : Nat) (stream : List PolyEntry) : List GroupOut :=
  match stream with
  | [] => []
  | e :: rest => probeOuter limit skip e.key (rest.length + 1) e rest

/-! ## `get_result` -/

/-- `get_result(data)` (parser.cpp lines 296-317) as a function of the
byte at the cursor (`c`), the byte one before it (`p1`) and the byte two
before it (`p2`).  Byte values: 47 `/`, 48 `0`, 45 `-`, 49 `1`, 32
space. -/
def get_result (c p1 p2 : Nat) : Nat :=
  if c = 47 then 2
  else if c = 48 then 1
  else if c = 45 then
    if p1 = 49 ∨ (p1 = 32 ∧ p2 = 49) then 0
    else if p1 = 48 ∨ (p1 = 32 ∧ p2 = 48) then 1
    else 3
  else 3

/-- Claim C7's description of `get_result`, written exactly as the spec
enumerates the cases (42 is `*`). -/
def get_result_spec (c p1 p2 : Nat) : Nat :=
  if c = 47 then 2
  else if c = 42 then 3
  else if c = 48 then 1
  else if c = 45 ∧ (p1 = 49 ∨ (p1 = 32 ∧ p2 = 49)) then 0
  else if c = 45 ∧ (p1 = 48 ∨ (p1 = 32 ∧ p2 = 48)) then 1
  else 3

/-! ## `parse_game` over the abstract engine interface -/

/-- The chess-engine capability set consumed by the replayer (spec
section 6; `position.h` is not part of the sources).  Moves are the
engine's 16-bit `Move` values, as `Nat`. -/
structure Engine (Position San : Type) where
  sanToMove : Position → San → Nat
  doMove : Position → Nat → Position
  doNullMove : Position → Position
  key : Position → Nat

/-- Modelled from the spec: the engine's failure sentinel (`san_to_move`
"returns a sentinel on failure", spec section 6); `MOVE_NONE = 0` in the
engine's move encoding. -/
def MOVE_NONE : Nat := 0

/-- Modelled from the spec: the engine's null-move value (`MOVE_NULL =
65`), the encoding of the PGN null move `--`. -/
def MOVE_NULL : Nat := 65

/-- `to_polyglot(m)` (parser.cpp lines 228-243).  Modelled from the spec
for the engine's `Move` encoding: promotion moves carry `1` in bits
14-15, the promotion piece minus `KNIGHT = 2` in bits 12-13, so
`(promotion_type(m) - 1) << 12` is `(((m >> 12) & 3) + 1) << 12`. -/
def to_polyglot (m : Nat) : Nat :=
  if (m >>> 14) &&& 3 = 1 then (m &&& 0xFFF) ||| ((((m >>> 12) &&& 3) + 1) <<< 12)
  else m &&& 0x3FFF

/-- The `learn` field computed once per `parse_game` call (parser.cpp
lines 265-266): `((uint32_t(result) & 3) << 30) | ((gameOfs >> 3) &
0x3FFFFFFF)`; both operands are below `2^32`, so `Nat` arithmetic is
exact. -/
def mkLearn (result gameOfs : Nat) : Nat :=
  ((result &&& 3) <<< 30) ||| ((gameOfs >>> 3) &&& 0x3FFFFFFF)

/-- The token loop of `parse_game` (parser.cpp lines 267-292),
record-emitting flavour (`DryRun = false`): the list of records pushed
onto `kTable`, in order.  A `MOVE_NONE` reply stops the game (after the
diagnostic, which is not modelled); `MOVE_NULL` advances the position
without emitting. -/
def parse_game_aux {Position San : Type} (E : Engine Position San)
    (learn : Nat) : Position → List San → List PolyEntry
  | _, [] => []
  | pos, tok :: rest =>
    let mv := E.sanToMove pos tok
    if mv = MOVE_NONE then []
    else if mv = MOVE_NULL then parse_game_aux E learn (E.doNullMove pos) rest
    else ⟨E.key pos, to_polyglot mv, 1, learn⟩ :: parse_game_aux E learn (E.doMove pos mv) rest

/-- `parse_game(moves, end, kTable, …, gameOfs, result)` (parser.cpp
lines 245-294): the content of `kTable` after the call. `pos` is the
starting position (the cached root position, or the FEN position when a
FEN tag was parsed; `Position::set` is engine-internal). -/
def parse_game {Position San : Type} (E : Engine Position San)
    (kTable : List PolyEntry) (pos : Position) (tokens : List San)
    (gameOfs result : Nat) : List PolyEntry :=
  kTable ++ parse_game_aux E (mkLearn result gameOfs) pos tokens

/-- Specification companion (spec sections 4.2 and 8): the pairs of
(position immediately before the move, move) at which the replayer emits
a record. -/
def emittedSteps {Position San : Type} (E : Engine Position San) :
    Position → List San → List (Position × Nat)
  | _, [] => []
  | pos, tok :: rest =>
    let mv := E.sanToMove pos tok
    if mv = MOVE_NONE then []
    else if mv = MOVE_NULL then emittedSteps E (E.doNullMove pos) rest
    else (pos, mv) :: emittedSteps E (E.doMove pos mv) rest

/-- One step of the replayed position (the `MOVE_NONE` branch is never
used under the hypotheses of the theorems that mention it). -/
def stepPos {Position San : Type} (E : Engine Position San)
    (pos : Position) (tok : San) : Position :=
  let mv := E.sanToMove pos tok
  if mv = MOVE_NONE then pos
  else if mv = MOVE_NULL then E.doNullMove pos
  else E.doMove pos mv

/-- Position reached after replaying a list of tokens. -/
def posAt {Position San : Type} (E : Engine Position San)
    (pos : Position) (toks : List San) : Position :=
  toks.foldl (stepPos E) pos

/-! ## The PGN parser state machine (`parse_pgn`) -/

/-- Token classes (`enum Token`, parser.cpp lines 58-63). -/
inductive Tok where
  | tNone | tSpaces | tResult | tMinus | tDot | tQuotes | tDollar
  | tLeftBracket | tRightBracket | tLeftBrace | tRightBrace
  | tLeftParen | tRightParen | tEvent | tZero | tDigit | tMoveHead
deriving DecidableEq, Repr

/-- Parser states (`enum State`, parser.cpp lines 65-68); `nag` stands
for `NUMERIC_ANNOTATION_GLYPH`. -/
inductive PState where
  | header | tag | fenTag | braceComment | variation | nag
  | nextMove | moveNumber | nextSan | readSan | result | skipGame
deriving DecidableEq, Repr

/-- Actions (`enum Step`, parser.cpp lines 70-75); `cont` is
`CONTINUE`. -/
inductive Act where
  | fail | cont | gameStart | openTag | openBraceComment | readFen | closeFenTag
  | openVariation | startNag | popState | startMoveNumber | startNextSan
  | castleOrResult | startReadSan | readMoveChar | endMove | startResult
  | endGame | tagInBrace | missingResult
deriving DecidableEq, Repr

/-- The byte classifier `ToToken` (parser.cpp lines 525-550).  Byte
values: 10 13 32 9 whitespace; 33 63 43 35 the trailer bytes `! ? + #`
(classified as spaces); 47 42 `/ *`; 45 `-`; 46 `.`; 34 `"`; 36 `$`;
91 93 brackets; 123 125 braces; 40 41 parentheses; 69 `E`; 48 `0`;
49-57 digits; 97-104 files `a`-`h`; 78 66 82 81 75 79 111 the piece and
castling letters; everything else maps to the zero class `T_NONE`. -/
def toToken (b : Nat) : Tok :=
  if b = 10 ∨ b = 13 ∨ b = 32 ∨ b = 9 then .tSpaces
  else if b = 33 ∨ b = 63 ∨ b = 43 ∨ b = 35 then .tSpaces
  else if b = 47 ∨ b = 42 then .tResult
  else if b = 45 then .tMinus
  else if b = 46 then .tDot
  else if b = 34 then .tQuotes
  else if b = 36 then .tDollar
  else if b = 91 then .tLeftBracket
  else if b = 93 then .tRightBracket
  else if b = 123 then .tLeftBrace
  else if b = 125 then .tRightBrace
  else if b = 40 then .tLeftParen
  else if b = 41 then .tRightParen
  else if b = 69 then .tEvent
  else if b = 48 then .tZero
  else if 49 ≤ b ∧ b ≤ 57 then .tDigit
  else if (97 ≤ b ∧ b ≤ 104) ∨ b = 78 ∨ b = 66 ∨ b = 82 ∨ b = 81 ∨ b = 75 ∨ b = 79 ∨ b = 111
    then .tMoveHead
  else .tNone

/-- The transition table `ToStep` (parser.cpp lines 552-678).  Cells not
assigned by `init()` hold the zero action `FAIL`; every state except
`MOVE_NUMBER` is first bulk-filled, so only `MOVE_NUMBER` has `FAIL`
defaults. -/
def toStep : PState → Tok → Act
  | .header, .tLeftBracket => .openTag
  | .header, .tLeftBrace => .openBraceComment
  | .header, .tDigit => .startMoveNumber
  | .header, .tZero => .startResult
  | .header, .tResult => .startResult
  | .header, _ => .cont
  | .tag, .tRightBracket => .popState
  | .tag, _ => .cont
  | .fenTag, .tQuotes => .closeFenTag
  | .fenTag, _ => .readFen
  | .braceComment, .tRightBrace => .popState
  | .braceComment, .tLeftBracket => .tagInBrace
  | .braceComment, _ => .cont
  | .variation, .tRightParen => .popState
  | .variation, .tLeftParen => .openVariation
  | .variation, .tLeftBrace => .openBraceComment
  | .variation, _ => .cont
  | .nag, .tZero => .cont
  | .nag, .tDigit => .cont
  | .nag, _ => .popState
  | .nextMove, .tLeftParen => .openVariation
  | .nextMove, .tLeftBrace => .openBraceComment
  | .nextMove, .tLeftBracket => .missingResult
  | .nextMove, .tDollar => .startNag
  | .nextMove, .tResult => .startResult
  | .nextMove, .tZero => .startResult
  | .nextMove, .tDot => .fail
  | .nextMove, .tMoveHead => .fail
  | .nextMove, .tMinus => .fail
  | .nextMove, .tDigit => .startMoveNumber
  | .nextMove, _ => .cont
  | .moveNumber, .tZero => .cont
  | .moveNumber, .tDigit => .cont
  | .moveNumber, .tResult => .startResult
  | .moveNumber, .tMinus => .startResult
  | .moveNumber, .tSpaces => .startNextSan
  | .moveNumber, .tDot => .startNextSan
  | .moveNumber, _ => .fail
  | .nextSan, .tLeftParen => .openVariation
  | .nextSan, .tLeftBrace => .openBraceComment
  | .nextSan, .tLeftBracket => .missingResult
  | .nextSan, .tDollar => .startNag
  | .nextSan, .tResult => .startResult
  | .nextSan, .tZero => .castleOrResult
  | .nextSan, .tDot => .cont
  | .nextSan, .tDigit => .startMoveNumber
  | .nextSan, .tMoveHead => .startReadSan
  | .nextSan, .tMinus => .startReadSan
  | .nextSan, _ => .cont
  | .readSan, .tSpaces => .endMove
  | .readSan, .tLeftBrace => .openBraceComment
  | .readSan, _ => .readMoveChar
  | .result, .tSpaces => .endGame
  | .result, _ => .cont
  | .skipGame, .tEvent => .gameStart
  | .skipGame, _ => .cont

/-- Byte of the mapped file at offset `i`.  Reads past the end give 0:
POSIX `mmap` zero-fills the tail of the final page, which is what the
C++ lookaheads (`data[2]`, `strncmp`) read there. -/
def byteAt (inp : List Nat) (i : Nat) : Nat := inp.getD i 0

/-- `strncmp(data + i, pat, pat.length) == 0`. -/
def matchBytes (inp : List Nat) : Nat → List Nat → Bool
  | _, [] => true
  | i, b :: rest => byteAt inp i == b && matchBytes inp (i + 1) rest

/-- The seven bytes of `"[Event "`. -/
def patEvent : List Nat := [91, 69, 118, 101, 110, 116, 32]

/-- The five bytes compared by the FEN-tag lookahead: `F` `E` `N` space
double-quote. -/
def patFen : List Nat := [70, 69, 78, 32, 34]

/-- The eight bytes of `"Variant "`. -/
def patVariant : List Nat := [86, 97, 114, 105, 97, 110, 116, 32]

/-- The ten bytes compared against the Variant value: double-quote
`Standard` double-quote. -/
def patStandard : List Nat := [34, 83, 116, 97, 110, 100, 97, 114, 100, 34]

/-- The three bytes of `" b "` searched in the FEN buffer. -/
def patBlackStm : List Nat := [32, 98, 32]

/-- Whether `pat` occurs at the head of `l`. -/
def headMatch : List Nat → List Nat → Bool
  | [], _ => true
  | _ :: _, [] => false
  | p :: ps, x :: xs => p == x && headMatch ps xs

/-- `strstr(l, pat) != nullptr`: whether `pat` occurs somewhere in `l`. -/
def hasSub (pat : List Nat) : List Nat → Bool
  | [] => headMatch pat []
  | x :: rest => headMatch pat (x :: rest) || hasSub pat rest

/-- Arguments of one `parse_game` call made by the driver: the SAN
buffer, the FEN buffer, the game offset and the result code at the
moment of the call. -/
structure Game where
  moves : List Nat
  fen : List Nat
  gameOfs : Nat
  result : Nat
deriving DecidableEq, Repr, Inhabited

/-- The driver's accumulators (parser.cpp lines 321-332), plus `games`
(the `parse_game` calls made so far, i.e. the finalised games) and
`errors` (the `FAIL` diagnostics printed).  `stateStack` holds states;
`end`/`curMove` are represented by `movesBuf`, the bytes written to the
`moves` buffer (SAN tokens separated by 0). -/
structure Machine where
  stack : List PState
  fen : List Nat
  movesBuf : List Nat
  moveCnt : Nat
  gameCnt : Nat
  gameOfs : Nat
  result : Nat
  stm : Nat
  st : PState
  games : List Game
  errors : Nat
deriving DecidableEq, Repr

/-- Initial accumulator values (parser.cpp lines 321-332). -/
def Machine.init : Machine :=
  ⟨[], [], [], 0, 0, 0, 3, 0, .header, [], 0⟩

/-- The game-finalising side effect shared by `END_GAME` (at a newline)
and `MISSING_RESULT` / `TAG_IN_BRACE`: call `parse_game` on the current
buffers, count the game, reset the per-game accumulators and return to
`HEADER` (parser.cpp lines 452-459 and 470-477).  `ofs` is the next
game's offset (`data - base + 1` for `END_GAME`, `data - base` for
`MISSING_RESULT`). -/
def finishGame (m : Machine) (ofs : Nat) : Machine :=
  { m with games := m.games ++ [⟨m.movesBuf, m.fen, m.gameOfs, m.result⟩],
           gameCnt := m.gameCnt + 1,
           result := 3,
           gameOfs := ofs,
           movesBuf := [],
           fen := [],
           st := .header,
           stm := 0 }

/-- One iteration of the driver loop `for (; data < eof; ++data)`
(parser.cpp lines 334-487) with the cursor at `pos`: dispatch on the
transition table and return the new accumulators and the new cursor
(including the loop's `++data`; `GAME_START` does `data -= 2` first,
the FEN lookahead `data += 5`).  In `CLOSE_FEN_TAG` the C++ `strstr`
stops at the first 0 of the buffer; the buffers differ only when one
game carries two FEN tags, which no theorem below exercises.  A
`POP_STATE` on an empty stack is a C++ buffer underflow and is modelled
as a no-op; no theorem below reaches it. -/
def pgnStep (inp : List Nat) (m : Machine) (pos : Nat) : Machine × Nat :=
  match toStep m.st (toToken (byteAt inp pos)) with
  | .fail => ({ m with errors := m.errors + 1 }, pos + 1)
  | .cont => (m, pos + 1)
  | .gameStart =>
    if matchBytes inp (pos - 1) patEvent then ({ m with st := .header }, pos - 1)
    else (m, pos + 1)
  | .openTag =>
    if matchBytes inp (pos + 1) patFen then
      ({ m with stack := m.st :: m.stack, st := .fenTag }, pos + 6)
    else if matchBytes inp (pos + 1) patVariant ∧ ¬ matchBytes inp (pos + 9) patStandard then
      ({ m with st := .skipGame }, pos + 1)
    else ({ m with stack := m.st :: m.stack, st := .tag }, pos + 1)
  | .openBraceComment => ({ m with stack := m.st :: m.stack, st := .braceComment }, pos + 1)
  | .readFen => ({ m with fen := m.fen ++ [byteAt inp pos] }, pos + 1)
  | .closeFenTag =>
    ({ m with fen := m.fen ++ [0], st := .tag,
              stm := if hasSub patBlackStm m.fen then 1 else m.stm }, pos + 1)
  | .openVariation => ({ m with stack := m.st :: m.stack, st := .variation }, pos + 1)
  | .startNag => ({ m with stack := m.st :: m.stack, st := .nag }, pos + 1)
  | .popState =>
    match m.stack with
    | [] => (m, pos + 1)
    | s :: rest => ({ m with st := s, stack := rest }, pos + 1)
  | .startMoveNumber => ({ m with st := .moveNumber }, pos + 1)
  | .startNextSan => ({ m with st := .nextSan }, pos + 1)
  | .castleOrResult =>
    if byteAt inp (pos + 2) ≠ 48 then
      ({ m with result := get_result (byteAt inp pos) (byteAt inp (pos - 1)) (byteAt inp (pos - 2)),
                st := .result }, pos + 1)
    else ({ m with movesBuf := m.movesBuf ++ [byteAt inp pos], st := .readSan }, pos + 1)
  | .startReadSan =>
    ({ m with movesBuf := m.movesBuf ++ [byteAt inp pos], st := .readSan }, pos + 1)
  | .readMoveChar => ({ m with movesBuf := m.movesBuf ++ [byteAt inp pos] }, pos + 1)
  | .endMove =>
    ({ m with movesBuf := m.movesBuf ++ [0], moveCnt := m.moveCnt + 1,
              st := if m.stm = 0 then .nextSan else .nextMove, stm := m.stm ^^^ 1 }, pos + 1)
  | .startResult =>
    ({ m with result := get_result (byteAt inp pos) (byteAt inp (pos - 1)) (byteAt inp (pos - 2)),
              st := .result }, pos + 1)
  | .endGame =>
    if byteAt inp pos ≠ 10 then ({ m with st := .result }, pos + 1)
    else (finishGame m (pos + 1), pos + 1)
  | .tagInBrace =>
    if matchBytes inp pos patEvent then
      (let m2 := finishGame m pos
       { m2 with stack := PState.header :: m2.stack, st := .tag }, pos + 1)
    else (m, pos + 1)
  | .missingResult =>
    (let m2 := finishGame m pos
     { m2 with stack := PState.header :: m2.stack, st := .tag }, pos + 1)

/-- The driver loop: step while `data < eof`.  `fuel` dominates the
iteration count; `parse_pgn` supplies more than any input can consume
(the cursor only moves backwards at a `GAME_START` match, at most once
per `[Event` occurrence). -/
def runAux (inp : List Nat) : Nat → Machine → Nat → Machine
  | 0, m, _ => m
  | fuel + 1, m, pos =>
    if pos < inp.length then
      let s := pgnStep inp m pos
      runAux inp fuel s.1 s.2
    else m

/-- End-of-file accounting (parser.cpp lines 489-495): the pending game
is finalised and counted iff the state is neither `HEADER` nor
`SKIP_GAME` and the moves buffer is non-empty. -/
def eofFinalize (m : Machine) : Machine :=
  if m.st ≠ PState.header ∧ m.st ≠ PState.skipGame ∧ m.movesBuf ≠ [] then
    { m with games := m.games ++ [⟨m.movesBuf, m.fen, m.gameOfs, m.result⟩],
             gameCnt := m.gameCnt + 1 }
  else m

/-- `parse_pgn(baseAddress, size, stats, kTable)` (parser.cpp lines
319-500) on the mapped bytes `inp`. -/
def parse_pgn (inp : List Nat) : Machine :=
  eofFinalize (runAux inp (4 * inp.length + 4) Machine.init 0)

/-! ## Definitions used by the theorems below -/

/-- A tiny concrete engine for witnesses: positions and SAN tokens are
numbers and `san_to_move` returns the token itself. -/
def natEngine : Engine Nat Nat :=
  ⟨fun _ s => s, fun p m => p + m, fun p => p + 1, fun p => p⟩

/-- Bucket counts of a whole group of records (left to right), for the
statement of the amended C3. -/
def countBuckets (grp : List PolyEntry) : Buckets :=
  grp.foldl (fun r e => r.bump (bucketOf e)) Buckets.zero

/-- The output `probe_key` produces for one move group `grp` (amended
C3): the group's move and first weight, the bucket counts of all its
records, and the decoded offsets of its records after the first `skip`,
at most `limit` many. -/
def groupAgg (limit skip : Nat) (grp : List PolyEntry) : GroupOut :=
  ⟨(grp.headD ⟨0, 0, 0, 0⟩).move, (grp.headD ⟨0, 0, 0, 0⟩).weight,
   countBuckets grp, ((grp.map decodeOfs).drop skip).take limit⟩

/-- `[a, b)` is a maximal run of records with equal `key` in `t`. -/
def IsMaxRun (t : List PolyEntry) (a b : Nat) : Prop :=
  a < b ∧ b ≤ t.length ∧
  (∀ i, i < b → a ≤ i → (ent t i).key = (ent t a).key) ∧
  (a = 0 ∨ (ent t (a - 1)).key ≠ (ent t a).key) ∧
  (b = t.length ∨ (ent t b).key ≠ (ent t a).key)

instance (t : List PolyEntry) (a b : Nat) : Decidable (IsMaxRun t a b) := by
  unfold IsMaxRun; infer_instance

/-- What one firing of the `make_book` run pass leaves in `[a, b)`:
runs longer than 2 are re-weighted against the sorted table `s` and
re-sorted descending; shorter runs are left as they are in `s`. -/
def segProp (s t : List PolyEntry) (a b : Nat) : Prop :=
  if 2 < b - a then
    seg t a b = List.insertionSort wmGe ((seg s a b).map (reweight (seg s a b) (b - a)))
  else
    seg t a b = seg s a b

/-- The bytes of the PGN `[Event "t"]\n[Variant "Chess960"]\n\n1. e4 e5
1-0\n[Event "u"]\n\n1. d4 *\n` (spec section 8, scenario 5). -/
def pgnVariantBytes : List Nat :=
  [91, 69, 118, 101, 110, 116, 32, 34, 116, 34, 93, 10,
   91, 86, 97, 114, 105, 97, 110, 116, 32, 34, 67, 104, 101, 115, 115, 57, 54, 48, 34, 93, 10,
   10, 49, 46, 32, 101, 52, 32, 101, 53, 32, 49, 45, 48, 10,
   91, 69, 118, 101, 110, 116, 32, 34, 117, 34, 93, 10, 10, 49, 46, 32, 100, 52, 32, 42, 10]

/-- The bytes of the PGN `[Event "t"]\n\n1. e4 e5 2. Nf3 Nc6 1-0` with
no trailing newline (spec section 8, scenario 2 minus the final
newline). -/
def pgnNoNewlineBytes : List Nat :=
  [91, 69, 118, 101, 110, 116, 32, 34, 116, 34, 93, 10, 10,
   49, 46, 32, 101, 52, 32, 101, 53, 32,
   50, 46, 32, 78, 102, 51, 32, 78, 99, 54, 32, 49, 45, 48]

/-- Witness table for C1 and C2: one re-weighted run (key 1, length 4,
followed by key 2) and one untouched final run (key 2, length 2). -/
def bookWitnessTable : List PolyEntry :=
  [⟨1, 2, 1, 0⟩, ⟨1, 2, 1, 1⟩, ⟨1, 3, 1, 0⟩, ⟨1, 4, 1, 0⟩, ⟨2, 1, 1, 0⟩, ⟨2, 9, 1, 0⟩]

/-! ## Helper lemmas -/

theorem mkLearn_eq (r g : Nat) : mkLearn r g = (r % 4) * 2 ^ 30 + (g / 8) % 2 ^ 30 := by
  unfold mkLearn
  have h1 : g >>> 3 = g / 8 := by rw [Nat.shiftRight_eq_div_pow]
  have h3 : r &&& 3 = r % 4 := Nat.and_pow_two_sub_one_eq_mod r 2
  have h2 : (g / 8) &&& 0x3FFFFFFF = (g / 8) % 2 ^ 30 :=
    Nat.and_pow_two_sub_one_eq_mod (g / 8) 30
  rw [Nat.shiftLeft_eq, h1, h2, h3, Nat.mul_comm (r % 4) (2 ^ 30)]
  rw [← Nat.mul_add_lt_is_or (Nat.mod_lt _ (by norm_num)) (r % 4)]

theorem mkLearn_shift (r g : Nat) : mkLearn r g >>> 30 = r % 4 := by
  rw [mkLearn_eq, Nat.shiftRight_eq_div_pow, Nat.mul_comm (r % 4) (2 ^ 30),
    Nat.mul_add_div (by norm_num : (0:Nat) < 2 ^ 30)]
  rw [Nat.div_eq_of_lt (Nat.mod_lt _ (by norm_num))]
  omega

/-! ## Claim C7 -/

/-- Claim C7: `get_result`, applied to a cursor pointing at the first
byte of a result token, returns 2 when the byte is `/`, 3 when it is
`*`, 1 when it is `0`, 0 when it is `-` preceded by `1` (optionally with
one intervening space), 1 when it is `-` preceded by `0` (optionally
with one intervening space), and 3 in every other case: the source
function agrees with that case table everywhere. -/
theorem C7_get_result (c p1 p2 : Nat) : get_result c p1 p2 = get_result_spec c p1 p2 := by
  unfold get_result get_result_spec
  split_ifs <;> omega

theorem parse_game_aux_learn {Position San : Type} (E : Engine Position San)
    (learn : Nat) (pos : Position) (tokens : List San) :
    ∀ r ∈ parse_game_aux E learn pos tokens, r.learn = learn := by
  induction tokens generalizing pos with
  | nil => intro r hr; simp [parse_game_aux] at hr
  | cons tok rest ih =>
    intro r hr
    unfold parse_game_aux at hr
    by_cases h1 : E.sanToMove pos tok = MOVE_NONE
    · simp [h1] at hr
    · by_cases h2 : E.sanToMove pos tok = MOVE_NULL
      · simp only [h1, h2, if_true, if_false] at hr
        exact ih _ r hr
      · simp only [h1, h2, if_false, List.mem_cons] at hr
        rcases hr with hr | hr
        · rw [hr]
        · exact ih _ r hr

theorem parse_game_aux_eq_steps {Position San : Type} (E : Engine Position San)
    (learn : Nat) (pos : Position) (tokens : List San) :
    parse_game_aux E learn pos tokens =
      (emittedSteps E pos tokens).map
        (fun s => ⟨E.key s.1, to_polyglot s.2, 1, learn⟩) := by
  induction tokens generalizing pos with
  | nil => rfl
  | cons tok rest ih =>
    unfold parse_game_aux emittedSteps
    by_cases h1 : E.sanToMove pos tok = MOVE_NONE
    · simp [h1]
    · by_cases h2 : E.sanToMove pos tok = MOVE_NULL
      · simp only [h1, h2, if_true, if_false]
        exact ih _
      · simp only [h1, h2, if_false, List.map_cons]
        rw [ih]

/-! ## Claim C5 -/

/-- Claim C5: for every record appended to the table by `parse_game`,
the `key` field is the engine key of the position immediately before the
encoded move is applied (the position advances only after the record is
emitted), and the `weight` field is 1: the appended records are exactly
the emitted steps (position before move, move) rendered as
`⟨key, to_polyglot move, 1, learn⟩`. -/
theorem C5_parse_game_records {Position San : Type} (E : Engine Position San)
    (kTable : List PolyEntry) (pos : Position) (tokens : List San)
    (gameOfs result : Nat) :
    parse_game E kTable pos tokens gameOfs result =
      kTable ++ (emittedSteps E pos tokens).map
        (fun s => ⟨E.key s.1, to_polyglot s.2, 1, mkLearn result gameOfs⟩) := by
  unfold parse_game
  rw [parse_game_aux_eq_steps]

/-! ## Claim C6 -/

/-- Claim C6: every record emitted by `parse_game` for a game with
result `result` and offset `gameOfs` carries `learn = ((result & 3) <<
30) | ((gameOfs >> 3) & 0x3FFFFFFF)` (that is `mkLearn result gameOfs`);
in particular all records of one game carry the same `learn`, and
`learn >> 30` is below 4. -/
theorem C6_learn_field {Position San : Type} (E : Engine Position San)
    (pos : Position) (tokens : List San) (gameOfs result : Nat) :
    (∀ r ∈ parse_game E [] pos tokens gameOfs result,
        r.learn = mkLearn result gameOfs) ∧
    (∀ r ∈ parse_game E [] pos tokens gameOfs result,
      ∀ r2 ∈ parse_game E [] pos tokens gameOfs result, r.learn = r2.learn) ∧
    (∀ r ∈ parse_game E [] pos tokens gameOfs result, r.learn >>> 30 < 4) := by
  have hl := parse_game_aux_learn E (mkLearn result gameOfs) pos tokens
  have hmem : ∀ r ∈ parse_game E [] pos tokens gameOfs result,
      r.learn = mkLearn result gameOfs := by
    intro r hr
    unfold parse_game at hr
    simp only [List.nil_append] at hr
    exact hl r hr
  refine ⟨hmem, ?_, ?_⟩
  · intro r hr r2 hr2
    rw [hmem r hr, hmem r2 hr2]
  · intro r hr
    rw [hmem r hr, mkLearn_shift]
    omega

/-! ## Claim C10 -/

theorem parse_game_aux_take {Position San : Type} [Inhabited San]
    (E : Engine Position San) (learn : Nat) :
    ∀ (k : Nat) (tokens : List San) (pos : Position),
    k < tokens.length →
    (∀ j, j < k →
      E.sanToMove (posAt E pos (tokens.take j)) (tokens.getD j default) ≠ MOVE_NONE) →
    E.sanToMove (posAt E pos (tokens.take k)) (tokens.getD k default) = MOVE_NONE →
    parse_game_aux E learn pos tokens = parse_game_aux E learn pos (tokens.take k) := by
  intro k
  induction k with
  | zero =>
    intro tokens pos hk _ hfail
    match tokens with
    | tok :: rest =>
      simp only [List.take_zero, List.take, posAt, List.foldl_nil, List.getD] at hfail ⊢
      unfold parse_game_aux
      simp_all
  | succ k ih =>
    intro tokens pos hk hbefore hfail
    match tokens with
    | tok :: rest =>
      have h0 : E.sanToMove pos tok ≠ MOVE_NONE := by
        have := hbefore 0 (Nat.succ_pos k)
        simpa [posAt] using this
      have hstep : stepPos E pos tok = if E.sanToMove pos tok = MOVE_NULL
          then E.doNullMove pos else E.doMove pos (E.sanToMove pos tok) := by
        unfold stepPos
        simp [h0]
      have hk' : k < rest.length := by simpa using hk
      have hbefore' : ∀ j, j < k →
          E.sanToMove (posAt E (stepPos E pos tok) (rest.take j)) (rest.getD j default)
            ≠ MOVE_NONE := by
        intro j hj
        have := hbefore (j + 1) (by omega)
        simpa [posAt, List.take_succ_cons] using this
      have hfail' :
          E.sanToMove (posAt E (stepPos E pos tok) (rest.take k)) (rest.getD k default)
            = MOVE_NONE := by
        simpa [posAt, List.take_succ_cons] using hfail
      have hrec := ih rest (stepPos E pos tok) hk' hbefore' hfail'
      rw [List.take_succ_cons]
      unfold parse_game_aux
      by_cases h2 : E.sanToMove pos tok = MOVE_NULL
      · rw [hstep, if_pos h2] at hrec
        simp only [if_neg h0, if_pos h2]
        exact hrec
      · rw [hstep, if_neg h2] at hrec
        simp only [if_neg h0, if_neg h2]
        rw [hrec]

/-- Claim C10: when the engine rejects a SAN token (`san_to_move`
returns `MOVE_NONE`) at the `k`-th token of a game, `parse_game` stops
there but keeps everything already pushed: the final table is the input
table followed by exactly the records of the first `k` tokens. -/
theorem C10_fail_keeps_records {Position San : Type} [Inhabited San]
    (E : Engine Position San) (kTable : List PolyEntry) (pos : Position)
    (tokens : List San) (gameOfs result k : Nat)
    (hk : k < tokens.length)
    (hbefore : ∀ j, j < k →
      E.sanToMove (posAt E pos (tokens.take j)) (tokens.getD j default) ≠ MOVE_NONE)
    (hfail : E.sanToMove (posAt E pos (tokens.take k)) (tokens.getD k default) = MOVE_NONE) :
    parse_game E kTable pos tokens gameOfs result =
      kTable ++ parse_game_aux E (mkLearn result gameOfs) pos (tokens.take k) := by
  unfold parse_game
  rw [parse_game_aux_take E _ k tokens pos hk hbefore hfail]

/-- Witness for C10: a two-token game over `natEngine` whose second
token is rejected keeps the pre-existing table entry and the record of
its first move. -/
theorem C10_witness :
    parse_game natEngine [⟨9, 9, 9, 9⟩] 0 [2, 0] 5 1 =
      [⟨9, 9, 9, 9⟩] ++ parse_game_aux natEngine (mkLearn 1 5) 0 (List.take 1 [2, 0]) :=
  C10_fail_keeps_records natEngine [⟨9, 9, 9, 9⟩] 0 [2, 0] 5 1 1
    (by decide) (by decide) (by decide)

/-! ## Claim C4 -/

theorem keptEntries_cons (prev e : PolyEntry) (full : Bool) (rest : List PolyEntry) :
    keptEntries prev full (e :: rest) =
      if e.key ≠ prev.key ∨ e.move ≠ prev.move ∨ full = true then
        e :: keptEntries e full rest
      else keptEntries prev full rest := rfl

theorem collapseRuns_nil : collapseRuns [] = [] := by
  rw [collapseRuns.eq_def]

theorem collapseRuns_cons (e : PolyEntry) (rest : List PolyEntry) :
    collapseRuns (e :: rest) =
      e :: collapseRuns (rest.dropWhile (fun x => x.key == e.key && x.move == e.move)) := by
  conv_lhs => rw [collapseRuns.eq_def]

theorem keptEntries_full (t : List PolyEntry) : ∀ prev, keptEntries prev true t = t := by
  induction t with
  | nil => intro prev; rfl
  | cons e rest ih =>
    intro prev
    rw [keptEntries_cons, if_pos (Or.inr (Or.inr rfl)), ih]

theorem dropWhile_head_false {α : Type} (p : α → Bool) :
    ∀ (l : List α) (x : α) (xs : List α), l.dropWhile p = x :: xs → p x = false := by
  intro l
  induction l with
  | nil => intro x xs h; simp [List.dropWhile] at h
  | cons a t ih =>
    intro x xs h
    rw [List.dropWhile_cons] at h
    by_cases hp : p a = true
    · rw [if_pos hp] at h
      exact ih x xs h
    · rw [if_neg hp] at h
      cases h
      simpa using hp

theorem keptEntries_dropWhile (e : PolyEntry) :
    ∀ (rest : List PolyEntry),
      keptEntries e false rest =
        keptEntries e false
          (rest.dropWhile (fun x => x.key == e.key && x.move == e.move)) := by
  intro rest
  induction rest with
  | nil => rfl
  | cons x xs ih =>
    rw [List.dropWhile_cons]
    by_cases hp : (x.key == e.key && x.move == e.move) = true
    · rw [if_pos hp]
      have hk : x.key = e.key := beq_iff_eq.mp ((Bool.and_eq_true _ _).mp hp).1
      have hm : x.move = e.move := beq_iff_eq.mp ((Bool.and_eq_true _ _).mp hp).2
      rw [keptEntries_cons, if_neg (by simp [hk, hm])]
      exact ih
    · rw [if_neg hp]

theorem keptEntries_eq_collapseRuns :
    ∀ (n : Nat) (l : List PolyEntry) (prev : PolyEntry), l.length ≤ n →
    (l = [] ∨ (ent l 0).key ≠ prev.key ∨ (ent l 0).move ≠ prev.move) →
    keptEntries prev false l = collapseRuns l := by
  intro n
  induction n with
  | zero =>
    intro l prev hlen _
    have h0 : l = [] := List.length_eq_zero.mp (Nat.le_zero.mp hlen)
    subst h0
    rw [collapseRuns_nil]
    rfl
  | succ n ih =>
    intro l prev hlen hhead
    match l with
    | [] =>
      rw [collapseRuns_nil]
      rfl
    | e :: rest =>
      have hcond : e.key ≠ prev.key ∨ e.move ≠ prev.move := by
        rcases hhead with h | h | h
        · cases h
        · exact Or.inl (by simpa [ent] using h)
        · exact Or.inr (by simpa [ent] using h)
      rw [keptEntries_cons, if_pos (show e.key ≠ prev.key ∨ e.move ≠ prev.move ∨ false = true by tauto),
        collapseRuns_cons, keptEntries_dropWhile]
      congr 1
      set l2 := rest.dropWhile (fun x => x.key == e.key && x.move == e.move) with hl2
      apply ih l2 e
      · have h1 : l2.length ≤ rest.length := (List.dropWhile_sublist _).length_le
        have h2 : rest.length ≤ n := by
          simp only [List.length_cons] at hlen
          omega
        omega
      · match hl2eq : l2 with
        | [] => exact Or.inl rfl
        | x :: xs =>
          have hx := dropWhile_head_false _ rest x xs (by rw [← hl2])
          simp only [Bool.and_eq_false_iff, beq_eq_false_iff_ne] at hx
          rcases hx with hx | hx
          · exact Or.inr (Or.inl (by simpa [ent] using hx))
          · exact Or.inr (Or.inr (by simpa [ent] using hx))

/-- Claim C4 (amended): `write_poly_file` filters against the previously
written entry starting from the zero dummy, so with `full = false` it
keeps exactly the first record of each maximal consecutive `(key, move)`
group, except that a table whose first record already carries the
dummy's `(key, move) = (0, 0)` also loses that first record (see the
counterexample); with `full = true` every record is written.  Every
written record is serialised big-endian into a 16-byte block. -/
theorem C4_write_poly_file (t : List PolyEntry) (full : Bool)
    (hhead : t = [] ∨ (ent t 0).key ≠ 0 ∨ (ent t 0).move ≠ 0) :
    (full = true → keptEntries dummyEntry true t = t) ∧
    (full = false → keptEntries dummyEntry false t = collapseRuns t) ∧
    write_poly_file t full =
      ((keptEntries dummyEntry full t).map serializeEntry).flatten ∧
    (∀ e : PolyEntry, (serializeEntry e).length = 16) := by
  refine ⟨fun _ => keptEntries_full t dummyEntry, fun _ => ?_, rfl, fun e => ?_⟩
  · exact keptEntries_eq_collapseRuns t.length t dummyEntry (Nat.le_refl _) hhead
  · simp [serializeEntry, writeBytes]

/-- Witness for C4: a three-record table with a duplicated leading
`(key, move)` group is collapsed to the group firsts. -/
theorem C4_witness :
    keptEntries dummyEntry false [⟨1, 1, 7, 9⟩, ⟨1, 1, 2, 2⟩, ⟨2, 1, 1, 1⟩] =
      collapseRuns [⟨1, 1, 7, 9⟩, ⟨1, 1, 2, 2⟩, ⟨2, 1, 1, 1⟩] :=
  (C4_write_poly_file [⟨1, 1, 7, 9⟩, ⟨1, 1, 2, 2⟩, ⟨2, 1, 1, 1⟩] false (by decide)).2.1 rfl

/-- Counterexample to C4 as stated: a table whose only record has
`(key, move) = (0, 0)` forms a single one-element group whose first
record the claim requires to be written; the code compares it against
the value-initialised dummy and writes nothing at all. -/
theorem C4_counterexample :
    write_poly_file [⟨0, 0, 7, 9⟩] false = [] ∧
    collapseRuns [⟨0, 0, 7, 9⟩] = [⟨0, 0, 7, 9⟩] ∧
    write_poly_file [⟨0, 0, 7, 9⟩] false ≠
      (List.map serializeEntry [⟨0, 0, 7, 9⟩]).flatten := by
  refine ⟨rfl, ?_, by decide⟩
  simp [collapseRuns_cons, collapseRuns_nil]

/-! ## Claim C3 -/

theorem probeOffs_step (limit skipc : Nat) (offs : List Nat) (d : Nat) (ds : List Nat) :
    (if skipc = 0 ∧ offs.length < limit then offs ++ [d] else offs) ++
      (ds.drop (skipc - 1)).take
        (limit - (if skipc = 0 ∧ offs.length < limit then offs ++ [d] else offs).length) =
    offs ++ ((d :: ds).drop skipc).take (limit - offs.length) := by
  by_cases hs : skipc = 0
  · subst hs
    by_cases hl : offs.length < limit
    · rw [if_pos ⟨rfl, hl⟩]
      simp only [List.length_append, List.length_cons, List.length_nil, Nat.zero_add,
        Nat.sub_zero, List.drop_zero]
      have hlim : limit - offs.length = (limit - (offs.length + 1)) + 1 := by omega
      rw [hlim, List.take_succ_cons, List.append_assoc]
      simp
    · rw [if_neg (by tauto)]
      have h0 : limit - offs.length = 0 := by omega
      simp [h0]
  · rw [if_neg (by tauto)]
    match skipc, hs with
    | n + 1, _ => simp

theorem probeGroup_spec (mv limit : Nat) :
    ∀ (grp : List PolyEntry) (skipc : Nat) (offs : List Nat) (res : Buckets)
      (e e2 : PolyEntry) (rest : List PolyEntry),
    (∀ x ∈ grp, x.move = mv) → e2.move ≠ mv →
    probeGroup mv limit skipc offs res e (grp ++ e2 :: rest) =
      (offs ++ (((e :: grp).map decodeOfs).drop skipc).take (limit - offs.length),
       (e :: grp).foldl (fun r x => r.bump (bucketOf x)) res, e2, rest) := by
  intro grp
  induction grp with
  | nil =>
    intro skipc offs res e e2 rest _ h2
    have hoffs := probeOffs_step limit skipc offs (decodeOfs e) []
    unfold probeGroup
    simp only [List.nil_append, if_neg h2]
    simp only [List.drop_nil, List.take_nil, List.append_nil] at hoffs
    rw [hoffs]
    simp
  | cons g grest ih =>
    intro skipc offs res e e2 rest hg h2
    have hgmv : g.move = mv := hg g (List.mem_cons_self g grest)
    have hg' : ∀ x ∈ grest, x.move = mv := fun x hx => hg x (List.mem_cons_of_mem g hx)
    show probeGroup mv limit skipc offs res e (g :: (grest ++ e2 :: rest)) = _
    unfold probeGroup
    simp only [if_pos hgmv]
    rw [ih (skipc - 1) _ _ g e2 rest hg' h2]
    have hoffs := probeOffs_step limit skipc offs (decodeOfs e) ((g :: grest).map decodeOfs)
    simp only [List.map_cons] at hoffs ⊢
    rw [hoffs]
    simp only [List.foldl_cons]

/-- Claim C3 (amended): `probe_key` starts at the given record, fixes
the probed key as the key of that first record, and forms move groups of
*consecutive records with identical move, regardless of their keys* (a
group keeps extending past a key change while the move repeats); for
each group it aggregates the per-result-bucket counts of all its
records and collects, after skipping the first `skip`, up to `limit`
decoded offsets `(learn & 0x3FFFFFFF) << 3`; after a group ends, it
continues with the next group iff the first unprocessed record carries
the probed key.  Stated for one group followed by a key change, and for
two groups followed by a key change. -/
theorem C3_probe_key_groups (limit skip : Nat) (e : PolyEntry) (grp : List PolyEntry)
    (e2 : PolyEntry) (grp2 : List PolyEntry) (e3 : PolyEntry) (rest : List PolyEntry)
    (hg : ∀ x ∈ grp, x.move = e.move) (h2 : e2.move ≠ e.move)
    (hg2 : ∀ x ∈ grp2, x.move = e2.move) (h3 : e3.move ≠ e2.move) :
    (e2.key ≠ e.key →
      probe_key limit skip (e :: (grp ++ e2 :: (grp2 ++ e3 :: rest))) =
        [groupAgg limit skip (e :: grp)]) ∧
    (e2.key = e.key → e3.key ≠ e.key →
      probe_key limit skip (e :: (grp ++ e2 :: (grp2 ++ e3 :: rest))) =
        [groupAgg limit skip (e :: grp), groupAgg limit skip (e2 :: grp2)]) := by
  have hlen : (grp ++ e2 :: (grp2 ++ e3 :: rest)).length =
      grp.length + grp2.length + rest.length + 2 := by
    simp only [List.length_append, List.length_cons]
    omega
  have hagg1 : (⟨e.move, e.weight,
        ((e :: grp).foldl (fun r x => r.bump (bucketOf x)) Buckets.zero),
        ([] : List Nat) ++ (((e :: grp).map decodeOfs).drop skip).take
          (limit - ([] : List Nat).length)⟩ : GroupOut)
      = groupAgg limit skip (e :: grp) := by
    unfold groupAgg countBuckets
    simp
  have hagg2 : (⟨e2.move, e2.weight,
        ((e2 :: grp2).foldl (fun r x => r.bump (bucketOf x)) Buckets.zero),
        ([] : List Nat) ++ (((e2 :: grp2).map decodeOfs).drop skip).take
          (limit - ([] : List Nat).length)⟩ : GroupOut)
      = groupAgg limit skip (e2 :: grp2) := by
    unfold groupAgg countBuckets
    simp
  constructor
  · intro hk
    show probeOuter limit skip e.key ((grp ++ e2 :: (grp2 ++ e3 :: rest)).length + 1) e
      (grp ++ e2 :: (grp2 ++ e3 :: rest)) = _
    rw [hlen]
    unfold probeOuter
    rw [probeGroup_spec e.move limit grp skip [] Buckets.zero e e2 (grp2 ++ e3 :: rest) hg h2]
    simp only
    rw [if_neg (fun h => hk h.symm), hagg1]
  · intro hk hk3
    show probeOuter limit skip e.key ((grp ++ e2 :: (grp2 ++ e3 :: rest)).length + 1) e
      (grp ++ e2 :: (grp2 ++ e3 :: rest)) = _
    rw [hlen]
    unfold probeOuter
    rw [probeGroup_spec e.move limit grp skip [] Buckets.zero e e2 (grp2 ++ e3 :: rest) hg h2]
    simp only
    rw [if_pos hk.symm, hagg1]
    show _ :: probeOuter limit skip e.key (grp.length + grp2.length + rest.length + 2) e2 _ = _
    have hfuel : grp.length + grp2.length + rest.length + 2 =
        (grp.length + grp2.length + rest.length + 1) + 1 := by omega
    rw [hfuel]
    unfold probeOuter
    rw [probeGroup_spec e2.move limit grp2 skip [] Buckets.zero e2 e3 rest hg2 h3]
    simp only
    rw [if_neg (fun h => hk3 h.symm), hagg2]

/-- Witness for C3: a two-group probe over the key-1 records of a
three-record book. -/
theorem C3_witness :
    probe_key 10 0 [⟨1, 5, 10, 0⟩, ⟨1, 6, 3, 2⟩, ⟨2, 7, 1, 3⟩] =
      [groupAgg 10 0 [⟨1, 5, 10, 0⟩], groupAgg 10 0 [⟨1, 6, 3, 2⟩]] :=
  (C3_probe_key_groups 10 0 ⟨1, 5, 10, 0⟩ [] ⟨1, 6, 3, 2⟩ [] ⟨2, 7, 1, 3⟩ []
    (by intro x hx; cases hx) (by decide) (by intro x hx; cases hx) (by decide)).2
    rfl (by decide)

/-- Counterexample to C3 as stated: probing a book whose first record
(key 1, move 5) is immediately followed by a record with a *different*
key 2 but the same move 5.  The claim says only the contiguous equal-key
run (the first record alone) is grouped and aggregated, which would give
one group with one game and the single offset 0; the code's inner loop
checks only the move, so the key-2 record is aggregated into the group
as well: two games and offsets [0, 8]. -/
theorem C3_counterexample :
    probe_key 10 0 [⟨1, 5, 10, 0⟩, ⟨2, 5, 11, 1⟩] =
      [⟨5, 10, ⟨2, 0, 0, 0⟩, [0, 8]⟩] ∧
    probe_key 10 0 [⟨1, 5, 10, 0⟩, ⟨2, 5, 11, 1⟩] ≠
      [⟨5, 10, ⟨1, 0, 0, 0⟩, [0]⟩] := by
  constructor
  · rfl
  · decide

/-! ## Claims C8 and C9 -/

theorem toToken_ne_tEvent (b : Nat) (hb : b ≠ 69) : toToken b ≠ Tok.tEvent := by
  unfold toToken
  by_cases c1 : b = 10 ∨ b = 13 ∨ b = 32 ∨ b = 9
  · rw [if_pos c1]; decide
  rw [if_neg c1]
  by_cases c2 : b = 33 ∨ b = 63 ∨ b = 43 ∨ b = 35
  · rw [if_pos c2]; decide
  rw [if_neg c2]
  by_cases c3 : b = 47 ∨ b = 42
  · rw [if_pos c3]; decide
  rw [if_neg c3]
  by_cases c4 : b = 45
  · rw [if_pos c4]; decide
  rw [if_neg c4]
  by_cases c5 : b = 46
  · rw [if_pos c5]; decide
  rw [if_neg c5]
  by_cases c6 : b = 34
  · rw [if_pos c6]; decide
  rw [if_neg c6]
  by_cases c7 : b = 36
  · rw [if_pos c7]; decide
  rw [if_neg c7]
  by_cases c8 : b = 91
  · rw [if_pos c8]; decide
  rw [if_neg c8]
  by_cases c9 : b = 93
  · rw [if_pos c9]; decide
  rw [if_neg c9]
  by_cases c10 : b = 123
  · rw [if_pos c10]; decide
  rw [if_neg c10]
  by_cases c11 : b = 125
  · rw [if_pos c11]; decide
  rw [if_neg c11]
  by_cases c12 : b = 40
  · rw [if_pos c12]; decide
  rw [if_neg c12]
  by_cases c13 : b = 41
  · rw [if_pos c13]; decide
  rw [if_neg c13]
  rw [if_neg hb]
  by_cases c15 : b = 48
  · rw [if_pos c15]; decide
  rw [if_neg c15]
  by_cases c16 : 49 ≤ b ∧ b ≤ 57
  · rw [if_pos c16]; decide
  rw [if_neg c16]
  by_cases c17 : (97 ≤ b ∧ b ≤ 104) ∨ b = 78 ∨ b = 66 ∨ b = 82 ∨ b = 81 ∨ b = 75 ∨ b = 79 ∨ b = 111
  · rw [if_pos c17]; decide
  rw [if_neg c17]
  decide

theorem toStep_skipGame_cont (tk : Tok) (h : tk ≠ Tok.tEvent) :
    toStep PState.skipGame tk = Act.cont := by
  cases tk
  case tEvent => exact absurd rfl h
  all_goals rfl

/-- Claim C8: a game whose tag block carries a `Variant` tag with a
value other than `"Standard"` is dropped silently.  Conjuncts: (1) at a
`[` in `HEADER` whose tag matches `Variant ` with a value differing from
`"Standard"`, the step switches to `SKIP_GAME` leaving the stack, the
emitted games, the game counter and the error counter untouched; (2) in
`SKIP_GAME` every byte that is not the `E` of a full `[Event ` literal
changes nothing but the cursor (in particular no game is emitted and no
`FAIL` diagnostic is printed); (3) at the `E` of `[Event ` parsing
rewinds two bytes (so the `[` is re-read) and resumes in `HEADER`; (4)
an end-of-file in `SKIP_GAME` does not finalise or count the skipped
game; (5) end to end, the two-game PGN whose first game is Chess960
(spec scenario 5) produces exactly one counted game, the second one,
with no diagnostics. -/
theorem C8_variant_skipped (inp : List Nat) (m : Machine) (pos : Nat) :
    (m.st = PState.header → byteAt inp pos = 91 →
      matchBytes inp (pos + 1) patVariant = true →
      matchBytes inp (pos + 9) patStandard = false →
      pgnStep inp m pos = ({ m with st := PState.skipGame }, pos + 1)) ∧
    (m.st = PState.skipGame →
      (byteAt inp pos ≠ 69 ∨ matchBytes inp (pos - 1) patEvent = false) →
      pgnStep inp m pos = (m, pos + 1)) ∧
    (m.st = PState.skipGame → byteAt inp pos = 69 →
      matchBytes inp (pos - 1) patEvent = true →
      pgnStep inp m pos = ({ m with st := PState.header }, pos - 1)) ∧
    (m.st = PState.skipGame → eofFinalize m = m) ∧
    (parse_pgn pgnVariantBytes).gameCnt = 1 ∧
    (parse_pgn pgnVariantBytes).games = [⟨[100, 52, 0], [], 0, 3⟩] ∧
    (parse_pgn pgnVariantBytes).errors = 0 := by
  refine ⟨?_, ?_, ?_, ?_, by decide, by decide, by decide⟩
  · intro h1 h2 h3 h4
    have htok : toToken (byteAt inp pos) = Tok.tLeftBracket := by rw [h2]; decide
    have hstep : toStep m.st (toToken (byteAt inp pos)) = Act.openTag := by
      rw [h1, htok]
      rfl
    have hv1 : byteAt inp (pos + 1) = 86 := by
      unfold matchBytes at h3
      simp only [patVariant] at h3
      have := (Bool.and_eq_true _ _).mp h3
      exact beq_iff_eq.mp this.1
    have hfen : ¬ (matchBytes inp (pos + 1) patFen = true) := by
      unfold matchBytes
      simp [patFen, hv1]
    unfold pgnStep
    rw [hstep]
    show (if matchBytes inp (pos + 1) patFen = true then _
      else if matchBytes inp (pos + 1) patVariant = true ∧
          ¬ matchBytes inp (pos + 9) patStandard = true then _ else _) = _
    rw [if_neg hfen, if_pos ⟨h3, by simp [h4]⟩]
  · intro h1 h2
    unfold pgnStep
    rw [h1]
    rcases h2 with hb | hmb
    · have htok : toToken (byteAt inp pos) ≠ Tok.tEvent := toToken_ne_tEvent _ hb
      rw [toStep_skipGame_cont _ htok]
    · by_cases hb : byteAt inp pos = 69
      · have htok : toToken (byteAt inp pos) = Tok.tEvent := by rw [hb]; decide
        rw [htok]
        show (if matchBytes inp (pos - 1) patEvent = true then _ else _) = _
        rw [if_neg (by simp [hmb])]
      · have htok : toToken (byteAt inp pos) ≠ Tok.tEvent := toToken_ne_tEvent _ hb
        rw [toStep_skipGame_cont _ htok]
  · intro h1 h2 h3
    have htok : toToken (byteAt inp pos) = Tok.tEvent := by rw [h2]; decide
    unfold pgnStep
    rw [h1, htok]
    show (if matchBytes inp (pos - 1) patEvent = true then _ else _) = _
    rw [if_pos h3]
  · intro h1
    unfold eofFinalize
    rw [if_neg (by simp [h1])]

/-- Witness for C8, on the scenario-5 bytes: entering `SKIP_GAME` at the
`[Variant` bracket (offset 12), idling inside the skipped game (offset
30), resuming at the `E` of the second `[Event ` (offset 48), and the
no-finalisation of a skipped game at end of file. -/
theorem C8_witness :
    pgnStep pgnVariantBytes Machine.init 12 =
      ({ Machine.init with st := PState.skipGame }, 13) ∧
    pgnStep pgnVariantBytes { Machine.init with st := PState.skipGame } 30 =
      ({ Machine.init with st := PState.skipGame }, 31) ∧
    pgnStep pgnVariantBytes { Machine.init with st := PState.skipGame } 48 =
      ({ Machine.init with st := PState.header }, 47) ∧
    eofFinalize { Machine.init with st := PState.skipGame } =
      { Machine.init with st := PState.skipGame } :=
  ⟨(C8_variant_skipped pgnVariantBytes Machine.init 12).1 rfl (by decide) (by decide) (by decide),
   (C8_variant_skipped pgnVariantBytes { Machine.init with st := PState.skipGame } 30).2.1 rfl
     (Or.inl (by decide)),
   (C8_variant_skipped pgnVariantBytes { Machine.init with st := PState.skipGame } 48).2.2.1 rfl
     (by decide) (by decide),
   (C8_variant_skipped pgnVariantBytes { Machine.init with st := PState.skipGame } 0).2.2.2.1 rfl⟩

/-- Claim C9: when end of file is reached with the parser in a state
other than `HEADER` and `SKIP_GAME`, the pending game is finalised and
counted exactly when the moves buffer is non-empty; in particular the
scenario-2 PGN without its trailing newline still emits its game (with
result 0 and the four SAN tokens `e4 e5 Nf3 Nc6`). -/
theorem C9_eof_pending (m : Machine) (h1 : m.st ≠ PState.header)
    (h2 : m.st ≠ PState.skipGame) :
    ((m.movesBuf ≠ [] →
        eofFinalize m =
          { m with games := m.games ++ [⟨m.movesBuf, m.fen, m.gameOfs, m.result⟩],
                   gameCnt := m.gameCnt + 1 }) ∧
     (m.movesBuf = [] → eofFinalize m = m)) ∧
    (parse_pgn pgnNoNewlineBytes).gameCnt = 1 ∧
    (parse_pgn pgnNoNewlineBytes).games =
      [⟨[101, 52, 0, 101, 53, 0, 78, 102, 51, 0, 78, 99, 54, 0], [], 0, 0⟩] ∧
    (parse_pgn pgnNoNewlineBytes).moveCnt = 4 := by
  refine ⟨⟨?_, ?_⟩, by decide, by decide, by decide⟩
  · intro h3
    unfold eofFinalize
    rw [if_pos ⟨h1, h2, h3⟩]
  · intro h3
    unfold eofFinalize
    rw [if_neg (by simp [h3])]

/-- Witness for C9: a machine pending in `RESULT` with one collected
token is finalised and counted; one with an empty buffer is left
alone. -/
theorem C9_witness :
    (eofFinalize ⟨[], [], [101, 0], 1, 0, 7, 3, 0, PState.result, [], 0⟩ =
      ⟨[], [], [101, 0], 1, 1, 7, 3, 0, PState.result, [⟨[101, 0], [], 7, 3⟩], 0⟩) ∧
    (eofFinalize ⟨[], [], [], 0, 0, 7, 3, 0, PState.result, [], 0⟩ =
      ⟨[], [], [], 0, 0, 7, 3, 0, PState.result, [], 0⟩) :=
  ⟨((C9_eof_pending ⟨[], [], [101, 0], 1, 0, 7, 3, 0, PState.result, [], 0⟩
      (by decide) (by decide)).1).1 (by decide),
   ((C9_eof_pending ⟨[], [], [], 0, 0, 7, 3, 0, PState.result, [], 0⟩
      (by decide) (by decide)).1).2 rfl⟩

/-! ## Claims C1 and C2: segment lemmas -/

theorem seg_length (t : List PolyEntry) (a b : Nat) (hb : b ≤ t.length) :
    (seg t a b).length = b - a := by
  unfold seg
  rw [List.length_take, List.length_drop]
  omega

theorem seg_getD (t : List PolyEntry) (a b j : Nat) (hj : j < b - a) :
    (seg t a b).getD j ⟨0, 0, 0, 0⟩ = ent t (a + j) := by
  unfold seg ent
  rw [List.getD_eq_getElem?_getD, List.getD_eq_getElem?_getD, List.getElem?_take,
    if_pos hj, List.getElem?_drop]

theorem ent_seg (t : List PolyEntry) (a b i : Nat) (h1 : a ≤ i) (h2 : i < b) :
    ent t i = (seg t a b).getD (i - a) ⟨0, 0, 0, 0⟩ := by
  rw [seg_getD t a b (i - a) (by omega)]
  congr 1
  omega

theorem seg_eq_of_ent (t1 t2 : List PolyEntry) (a b : Nat)
    (hb1 : b ≤ t1.length) (hb2 : b ≤ t2.length)
    (h : ∀ i, a ≤ i → i < b → ent t1 i = ent t2 i) :
    seg t1 a b = seg t2 a b := by
  have l1 := seg_length t1 a b hb1
  have l2 := seg_length t2 a b hb2
  apply List.ext_getElem?
  intro j
  by_cases hj : j < b - a
  · rw [List.getElem?_eq_getElem (by omega), List.getElem?_eq_getElem (by omega)]
    have g1 : (seg t1 a b)[j] = (seg t1 a b).getD j ⟨0, 0, 0, 0⟩ :=
      (List.getD_eq_getElem _ _ (by omega)).symm
    have g2 : (seg t2 a b)[j] = (seg t2 a b).getD j ⟨0, 0, 0, 0⟩ :=
      (List.getD_eq_getElem _ _ (by omega)).symm
    rw [g1, g2, seg_getD t1 a b j hj, seg_getD t2 a b j hj]
    rw [h (a + j) (by omega) (by omega)]
  · rw [List.getElem?_eq_none (by omega), List.getElem?_eq_none (by omega)]

theorem getD_mem (l : List PolyEntry) (i : Nat) (h : i < l.length) :
    l.getD i ⟨0, 0, 0, 0⟩ ∈ l := by
  rw [List.getD_eq_getElem _ _ h]
  exact List.getElem_mem h

theorem ent_mem (t : List PolyEntry) (i : Nat) (h : i < t.length) : ent t i ∈ t :=
  getD_mem t i h

theorem sorted_getD {r : PolyEntry → PolyEntry → Prop} (l : List PolyEntry)
    (h : List.Sorted r l) (i j : Nat) (hij : i < j) (hj : j < l.length) :
    r (l.getD i ⟨0, 0, 0, 0⟩) (l.getD j ⟨0, 0, 0, 0⟩) := by
  have h2 := List.Sorted.rel_get_of_lt h (a := ⟨i, by omega⟩) (b := ⟨j, by omega⟩)
    (by simpa using hij)
  rw [List.getD_eq_getElem _ _ (by omega), List.getD_eq_getElem _ _ hj]
  simpa using h2

/-! Sandwich lemmas: the shape `t.take a ++ M ++ t.drop b` produced by
`sort_by_frequency`. -/

theorem sandwich_length (t M : List PolyEntry) (a b : Nat)
    (ha : a ≤ b) (hb : b ≤ t.length) (hM : M.length = b - a) :
    (t.take a ++ M ++ t.drop b).length = t.length := by
  simp only [List.length_append, List.length_take, List.length_drop]
  omega

theorem sandwich_ent_lt (t M : List PolyEntry) (a b i : Nat)
    (ha : a ≤ b) (hb : b ≤ t.length) (hM : M.length = b - a) (hi : i < a) :
    ent (t.take a ++ M ++ t.drop b) i = ent t i := by
  unfold ent
  rw [List.getD_eq_getElem?_getD, List.getD_eq_getElem?_getD]
  have h1 : (t.take a).length = a := by rw [List.length_take]; omega
  have h2 : (t.take a ++ M).length = b := by rw [List.length_append, h1]; omega
  rw [List.getElem?_append, if_pos (by omega), List.getElem?_append, if_pos (by omega),
    List.getElem?_take, if_pos hi]

theorem sandwich_ent_ge (t M : List PolyEntry) (a b i : Nat)
    (ha : a ≤ b) (hb : b ≤ t.length) (hM : M.length = b - a) (hi : b ≤ i) :
    ent (t.take a ++ M ++ t.drop b) i = ent t i := by
  unfold ent
  rw [List.getD_eq_getElem?_getD, List.getD_eq_getElem?_getD]
  have h1 : (t.take a).length = a := by rw [List.length_take]; omega
  have h2 : (t.take a ++ M).length = b := by rw [List.length_append, h1]; omega
  rw [List.getElem?_append, if_neg (by rw [h2]; omega), List.getElem?_drop]
  have hidx : b + (i - (t.take a ++ M).length) = i := by rw [h2]; omega
  rw [hidx]

theorem sandwich_seg (t M : List PolyEntry) (a b : Nat)
    (ha : a ≤ b) (hb : b ≤ t.length) (hM : M.length = b - a) :
    seg (t.take a ++ M ++ t.drop b) a b = M := by
  have h1 : (t.take a).length = a := by rw [List.length_take]; omega
  have h2 : (t.take a ++ M).length = b := by rw [List.length_append, h1]; omega
  have hL : (t.take a ++ M ++ t.drop b).length = t.length := sandwich_length t M a b ha hb hM
  have hsl : (seg (t.take a ++ M ++ t.drop b) a b).length = b - a := by
    rw [seg_length _ a b (by omega)]
  apply List.ext_getElem?
  intro j
  by_cases hj : j < b - a
  · rw [List.getElem?_eq_getElem (by omega), List.getElem?_eq_getElem (by omega)]
    have g1 : (seg (t.take a ++ M ++ t.drop b) a b)[j] =
        (seg (t.take a ++ M ++ t.drop b) a b).getD j ⟨0, 0, 0, 0⟩ :=
      (List.getD_eq_getElem _ _ (by omega)).symm
    rw [g1, seg_getD _ a b j hj]
    unfold ent
    rw [List.getD_eq_getElem?_getD, List.getElem?_append, if_pos (by omega),
      List.getElem?_append, if_neg (by omega), h1]
    have hidx : a + j - a = j := by omega
    rw [hidx, List.getElem?_eq_getElem (by omega)]
    rfl
  · rw [List.getElem?_eq_none (by omega), List.getElem?_eq_none (by omega)]

/-- `sort_by_frequency` in sandwich form. -/
theorem sort_by_frequency_eq (t : List PolyEntry) (a b : Nat) :
    sort_by_frequency t a b =
      t.take a ++
        List.insertionSort wmGe ((seg t a b).map (reweight (seg t a b) (b - a))) ++
        t.drop b := rfl

theorem sbf_mid_length (t : List PolyEntry) (a b : Nat) (hb : b ≤ t.length) :
    (List.insertionSort wmGe ((seg t a b).map (reweight (seg t a b) (b - a)))).length
      = b - a := by
  rw [List.length_insertionSort, List.length_map, seg_length t a b hb]

theorem mem_sbf_mid_key (t : List PolyEntry) (a b K : Nat) (hb : b ≤ t.length)
    (hK : ∀ i, a ≤ i → i < b → (ent t i).key = K) :
    ∀ x ∈ List.insertionSort wmGe ((seg t a b).map (reweight (seg t a b) (b - a))),
      x.key = K := by
  intro x hx
  rw [List.mem_insertionSort] at hx
  obtain ⟨y, hy, hxy⟩ := List.mem_map.mp hx
  obtain ⟨j, hj, hyj⟩ := List.getElem_of_mem hy
  have hjlen : j < b - a := by
    rw [seg_length t a b hb] at hj
    exact hj
  have hgd : (seg t a b).getD j ⟨0, 0, 0, 0⟩ = y := by
    rw [List.getD_eq_getElem _ _ hj, hyj]
  have hyk : y.key = K := by
    rw [← hgd, seg_getD t a b j hjlen]
    exact hK (a + j) (by omega) (by omega)
  rw [← hxy]
  exact hyk

theorem segProp_congr (s t1 t2 : List PolyEntry) (a b : Nat)
    (h : seg t1 a b = seg t2 a b) (hp : segProp s t2 a b) : segProp s t1 a b := by
  unfold segProp at hp ⊢
  by_cases hc : 2 < b - a
  · rw [if_pos hc] at hp ⊢
    rw [h, hp]
  · rw [if_neg hc] at hp ⊢
    rw [h, hp]

theorem bookLoop_exit (s t : List PolyEntry) (idx last : Nat)
    (hA1 : t.length = s.length)
    (hA2 : ∀ i, (ent t i).key = (ent s i).key)
    (hA3 : ∀ i, last ≤ i → ent t i = ent s i)
    (hA4 : last < idx)
    (hA5 : idx ≤ s.length ∨ idx = 1)
    (hA6 : ∀ i, i < idx → last ≤ i → (ent s i).key = (ent s last).key)
    (hA7 : last = 0 ∨ (ent s (last - 1)).key ≠ (ent s last).key)
    (hA8 : ∀ a b, b ≤ last → IsMaxRun s a b → segProp s t a b)
    (hexit : s.length ≤ idx) :
    t.length = s.length ∧
    (∀ i, (ent t i).key = (ent s i).key) ∧
    (∀ a b, IsMaxRun s a b → b < s.length → segProp s t a b) ∧
    (∀ a b, IsMaxRun s a b → b = s.length → seg t a b = seg s a b) := by
  refine ⟨hA1, hA2, ?_, ?_⟩
  · intro a b hrun hblt
    obtain ⟨hab, hble, hrunEq, hbda, hbdb⟩ := hrun
    have hble2 : b ≤ last := by
      by_contra hgt
      push_neg at hgt
      have hkb : (ent s b).key ≠ (ent s a).key := by
        rcases hbdb with h | h
        · omega
        · exact h
      by_cases hal : last ≤ a
      · have h1 : (ent s a).key = (ent s last).key := hA6 a (by omega) hal
        have h2 : (ent s b).key = (ent s last).key := hA6 b (by omega) (by omega)
        exact hkb (by rw [h1, h2])
      · push_neg at hal
        have hl1 : (ent s last).key = (ent s a).key := hrunEq last (by omega) (by omega)
        have hl2 : (ent s (last - 1)).key = (ent s a).key := hrunEq (last - 1) (by omega) (by omega)
        rcases hA7 with h | h
        · omega
        · exact h (by rw [hl2, hl1])
    exact hA8 a b hble2 ⟨hab, hble, hrunEq, hbda, hbdb⟩
  · intro a b hrun hbeq
    obtain ⟨hab, hble, hrunEq, hbda, hbdb⟩ := hrun
    have hlast_lt : last < s.length := by
      rcases hA5 with h | h
      · omega
      · omega
    have hal : last ≤ a := by
      by_contra hal
      push_neg at hal
      have hl1 : (ent s last).key = (ent s a).key := hrunEq last (by omega) (by omega)
      have hl2 : (ent s (last - 1)).key = (ent s a).key := hrunEq (last - 1) (by omega) (by omega)
      rcases hA7 with h | h
      · omega
      · exact h (by rw [hl2, hl1])
    apply seg_eq_of_ent t s a b (by omega) (by omega)
    intro i hi1 _
    exact hA3 i (by omega)

theorem run_uniq (s : List PolyEntry) (idx last : Nat)
    (hA4 : last < idx) (hidxlen : idx < s.length)
    (hA6 : ∀ i, i < idx → last ≤ i → (ent s i).key = (ent s last).key)
    (hA7 : last = 0 ∨ (ent s (last - 1)).key ≠ (ent s last).key) :
    ∀ a b, b ≤ idx → last < b → IsMaxRun s a b → a = last ∧ b = idx := by
  intro a b hbi hlb hrun
  obtain ⟨hab, hble, hrunEq, hbda, hbdb⟩ := hrun
  have hb_idx : b = idx := by
    by_contra hne
    have hblt : b < idx := by omega
    have h1 : (ent s b).key = (ent s last).key := hA6 b hblt (by omega)
    have h3 : (ent s b).key ≠ (ent s a).key := by
      rcases hbdb with h | h
      · omega
      · exact h
    by_cases hb1 : last ≤ b - 1
    · have h2 : (ent s (b - 1)).key = (ent s a).key := hrunEq (b - 1) (by omega) (by omega)
      have h4 : (ent s (b - 1)).key = (ent s last).key := hA6 (b - 1) (by omega) hb1
      exact h3 (by rw [h1, ← h4, h2])
    · omega
  refine ⟨?_, hb_idx⟩
  by_contra hne
  by_cases hal : last < a
  · have h1 : (ent s a).key = (ent s last).key := hA6 a (by omega) (by omega)
    have h2 : (ent s (a - 1)).key = (ent s last).key := hA6 (a - 1) (by omega) (by omega)
    rcases hbda with h | h
    · omega
    · exact h (by rw [h1, h2])
  · have haltlast : a < last := by omega
    have h1 : (ent s last).key = (ent s a).key := hrunEq last (by omega) (by omega)
    have h2 : (ent s (last - 1)).key = (ent s a).key := hrunEq (last - 1) (by omega) (by omega)
    rcases hA7 with h | h
    · omega
    · exact h (by rw [h2, h1])

theorem bookLoop_spec (s : List PolyEntry) :
    ∀ (fuel : Nat) (t : List PolyEntry) (idx last : Nat),
    t.length = s.length →
    (∀ i, (ent t i).key = (ent s i).key) →
    (∀ i, last ≤ i → ent t i = ent s i) →
    last < idx →
    (idx ≤ s.length ∨ idx = 1) →
    (∀ i, i < idx → last ≤ i → (ent s i).key = (ent s last).key) →
    (last = 0 ∨ (ent s (last - 1)).key ≠ (ent s last).key) →
    (∀ a b, b ≤ last → IsMaxRun s a b → segProp s t a b) →
    s.length ≤ fuel + idx →
    ((bookLoop fuel t idx last).length = s.length ∧
     (∀ i, (ent (bookLoop fuel t idx last) i).key = (ent s i).key) ∧
     (∀ a b, IsMaxRun s a b → b < s.length → segProp s (bookLoop fuel t idx last) a b) ∧
     (∀ a b, IsMaxRun s a b → b = s.length →
        seg (bookLoop fuel t idx last) a b = seg s a b)) := by
  intro fuel
  induction fuel with
  | zero =>
    intro t idx last hA1 hA2 hA3 hA4 hA5 hA6 hA7 hA8 hfuel
    exact bookLoop_exit s t idx last hA1 hA2 hA3 hA4 hA5 hA6 hA7 hA8 (by omega)
  | succ fuel ih =>
    intro t idx last hA1 hA2 hA3 hA4 hA5 hA6 hA7 hA8 hfuel
    have hunfold : bookLoop (fuel + 1) t idx last =
        if idx < t.length then
          (if (ent t idx).key ≠ (ent t (idx - 1)).key then
            bookLoop fuel (if idx - last > 2 then sort_by_frequency t last idx else t)
              (idx + 1) idx
          else bookLoop fuel t (idx + 1) last)
        else t := rfl
    by_cases hlt : idx < t.length
    case neg =>
      rw [hunfold, if_neg hlt]
      exact bookLoop_exit s t idx last hA1 hA2 hA3 hA4 hA5 hA6 hA7 hA8 (by omega)
    case pos =>
      have hidxlen : idx < s.length := by omega
      by_cases hk : (ent t idx).key ≠ (ent t (idx - 1)).key
      case pos =>
        have hkeyS : (ent s idx).key ≠ (ent s (idx - 1)).key := by
          rw [← hA2 idx, ← hA2 (idx - 1)]
          exact hk
        have hkeyLast : (ent s (idx - 1)).key = (ent s last).key :=
          hA6 (idx - 1) (by omega) (by omega)
        rw [hunfold, if_pos hlt, if_pos hk]
        have hbound : Or.inr (fun hc => hkeyS (by rw [hc, hkeyLast])) =
            (Or.inr (fun hc => hkeyS (by rw [hc, hkeyLast])) :
              idx = s.length ∨ (ent s idx).key ≠ (ent s last).key) := rfl
        have hrunNew : IsMaxRun s last idx :=
          ⟨hA4, by omega, hA6, hA7,
           Or.inr (fun hc => hkeyS (by rw [hc, hkeyLast]))⟩
        have hsegts : seg t last idx = seg s last idx :=
          seg_eq_of_ent t s last idx (by omega) (by omega) (fun i hi _ => hA3 i hi)
        have huniq := run_uniq s idx last hA4 hidxlen hA6 hA7
        have hA6' : ∀ i, i < idx + 1 → idx ≤ i → (ent s i).key = (ent s idx).key := by
          intro i h1 h2
          have : i = idx := by omega
          rw [this]
        have hA7' : idx = 0 ∨ (ent s (idx - 1)).key ≠ (ent s idx).key :=
          Or.inr (fun hc => hkeyS hc.symm)
        by_cases hbig : idx - last > 2
        case pos =>
          rw [if_pos hbig]
          have hMlen :
              (List.insertionSort wmGe
                ((seg t last idx).map (reweight (seg t last idx) (idx - last)))).length =
              idx - last := sbf_mid_length t last idx (by omega)
          have hsw := sort_by_frequency_eq t last idx
          have hlen2 : (sort_by_frequency t last idx).length = s.length := by
            rw [hsw, sandwich_length t _ last idx (by omega) (by omega) hMlen, hA1]
          have hentlt : ∀ i, i < last → ent (sort_by_frequency t last idx) i = ent t i := by
            intro i hi
            rw [hsw]
            exact sandwich_ent_lt t _ last idx i (by omega) (by omega) hMlen hi
          have hentge : ∀ i, idx ≤ i → ent (sort_by_frequency t last idx) i = ent t i := by
            intro i hi
            rw [hsw]
            exact sandwich_ent_ge t _ last idx i (by omega) (by omega) hMlen hi
          have hsegmid : seg (sort_by_frequency t last idx) last idx =
              List.insertionSort wmGe
                ((seg t last idx).map (reweight (seg t last idx) (idx - last))) := by
            rw [hsw]
            exact sandwich_seg t _ last idx (by omega) (by omega) hMlen
          have hmidkey := mem_sbf_mid_key t last idx ((ent s last).key) (by omega)
            (fun i hi1 hi2 => by rw [hA2 i]; exact hA6 i (by omega) hi1)
          have hA2' : ∀ i, (ent (sort_by_frequency t last idx) i).key = (ent s i).key := by
            intro i
            by_cases h1 : i < last
            · rw [hentlt i h1]
              exact hA2 i
            · by_cases h2 : idx ≤ i
              · rw [hentge i h2]
                exact hA2 i
              · have hmid : ent (sort_by_frequency t last idx) i =
                    (seg (sort_by_frequency t last idx) last idx).getD (i - last)
                      ⟨0, 0, 0, 0⟩ :=
                  ent_seg _ last idx i (by omega) (by omega)
                rw [hmid, hsegmid]
                have hmem := getD_mem _ (i - last) (by rw [hMlen]; omega)
                rw [hmidkey _ hmem]
                rw [hA6 i (by omega) (by omega)]
          have hA3' : ∀ i, idx ≤ i → ent (sort_by_frequency t last idx) i = ent s i := by
            intro i hi
            rw [hentge i hi]
            exact hA3 i (by omega)
          have hPropNew : segProp s (sort_by_frequency t last idx) last idx := by
            unfold segProp
            rw [if_pos hbig]
            rw [hsegmid, hsegts]
          have hA8' : ∀ a b, b ≤ idx → IsMaxRun s a b →
              segProp s (sort_by_frequency t last idx) a b := by
            intro a b hbi hrun
            by_cases hbl : b ≤ last
            · have hseg : seg (sort_by_frequency t last idx) a b = seg t a b := by
                apply seg_eq_of_ent _ t a b (by omega) (by omega)
                intro i hi1 hi2
                exact hentlt i (by omega)
              exact segProp_congr s _ t a b hseg (hA8 a b hbl hrun)
            · obtain ⟨hae, hbe⟩ := huniq a b hbi (by omega) hrun
              rw [hae, hbe]
              exact hPropNew
          exact ih (sort_by_frequency t last idx) (idx + 1) idx hlen2 hA2' hA3'
            (by omega) (Or.inl (by omega)) hA6' hA7' hA8' (by omega)
        case neg =>
          rw [if_neg hbig]
          have hPropNew : segProp s t last idx := by
            unfold segProp
            rw [if_neg hbig]
            exact hsegts
          have hA3' : ∀ i, idx ≤ i → ent t i = ent s i := by
            intro i hi
            exact hA3 i (by omega)
          have hA8' : ∀ a b, b ≤ idx → IsMaxRun s a b → segProp s t a b := by
            intro a b hbi hrun
            by_cases hbl : b ≤ last
            · exact hA8 a b hbl hrun
            · obtain ⟨hae, hbe⟩ := huniq a b hbi (by omega) hrun
              rw [hae, hbe]
              exact hPropNew
          exact ih t (idx + 1) idx hA1 hA2 hA3' (by omega) (Or.inl (by omega))
            hA6' hA7' hA8' (by omega)
      case neg =>
        push_neg at hk
        have hkeyS : (ent s idx).key = (ent s (idx - 1)).key := by
          rw [← hA2 idx, ← hA2 (idx - 1)]
          exact hk
        rw [hunfold, if_pos hlt, if_neg (by simpa using hk)]
        have hA6' : ∀ i, i < idx + 1 → last ≤ i → (ent s i).key = (ent s last).key := by
          intro i h1 h2
          by_cases hi : i < idx
          · exact hA6 i hi h2
          · have : i = idx := by omega
            rw [this, hkeyS]
            exact hA6 (idx - 1) (by omega) (by omega)
        exact ih t (idx + 1) last hA1 hA2 hA3 (by omega) (Or.inl (by omega))
          hA6' hA7 hA8 (by omega)

theorem make_book_post_spec (t : List PolyEntry) :
    (make_book_post t).length = (List.insertionSort pleLe t).length ∧
    (∀ i, (ent (make_book_post t) i).key = (ent (List.insertionSort pleLe t) i).key) ∧
    (∀ a b, IsMaxRun (List.insertionSort pleLe t) a b →
      b < (List.insertionSort pleLe t).length →
      segProp (List.insertionSort pleLe t) (make_book_post t) a b) ∧
    (∀ a b, IsMaxRun (List.insertionSort pleLe t) a b →
      b = (List.insertionSort pleLe t).length →
      seg (make_book_post t) a b = seg (List.insertionSort pleLe t) a b) := by
  have h := bookLoop_spec (List.insertionSort pleLe t) (List.insertionSort pleLe t).length
    (List.insertionSort pleLe t) 1 0 rfl (fun _ => rfl) (fun _ _ => rfl) (by omega)
    (Or.inr rfl)
    (fun i h1 _ => by
      have hi : i = 0 := by omega
      rw [hi])
    (Or.inl rfl)
    (fun a b hb hrun => absurd hrun.1 (by omega))
    (by omega)
  exact h

theorem isMaxRun_trans (t1 t2 : List PolyEntry) (a b : Nat)
    (hlen : t1.length = t2.length)
    (hk : ∀ i, (ent t1 i).key = (ent t2 i).key) :
    IsMaxRun t1 a b ↔ IsMaxRun t2 a b := by
  unfold IsMaxRun
  rw [hlen]
  constructor
  · rintro ⟨h1, h2, h3, h4, h5⟩
    refine ⟨h1, h2, ?_, ?_, ?_⟩
    · intro i hi1 hi2
      rw [← hk i, ← hk a]
      exact h3 i hi1 hi2
    · rcases h4 with h | h
      · exact Or.inl h
      · exact Or.inr (by rw [← hk (a - 1), ← hk a]; exact h)
    · rcases h5 with h | h
      · exact Or.inl h
      · exact Or.inr (by rw [← hk b, ← hk a]; exact h)
  · rintro ⟨h1, h2, h3, h4, h5⟩
    refine ⟨h1, h2, ?_, ?_, ?_⟩
    · intro i hi1 hi2
      rw [hk i, hk a]
      exact h3 i hi1 hi2
    · rcases h4 with h | h
      · exact Or.inl h
      · exact Or.inr (by rw [hk (a - 1), hk a]; exact h)
    · rcases h5 with h | h
      · exact Or.inl h
      · exact Or.inr (by rw [hk b, hk a]; exact h)

theorem sorted_key_mono (l : List PolyEntry) (h : List.Sorted pleLe l) (i j : Nat)
    (hij : i ≤ j) (hj : j < l.length) : (ent l i).key ≤ (ent l j).key := by
  rcases Nat.eq_or_lt_of_le hij with he | hlt
  · rw [he]
  · have h2 := sorted_getD l h i j hlt hj
    unfold pleLe at h2
    unfold ent
    omega

theorem ent_eq_of_seg_eq (t1 t2 : List PolyEntry) (a b i : Nat)
    (h : seg t1 a b = seg t2 a b) (h1 : a ≤ i) (h2 : i < b) : ent t1 i = ent t2 i := by
  rw [ent_seg t1 a b i h1 h2, ent_seg t2 a b i h1 h2, h]

/-- Claim C1 (amended): after `make_book`'s post-processing (global sort
then the per-run pass) the table is in non-decreasing `key` order;
every maximal equal-key run that the pass re-weighted — length above 2
*and* followed by a further record with a different key — is in
non-increasing `weight` order with ties in non-increasing `move` order;
every other maximal run (length at most 2, or the final run of the
table, which the pass never fires on) keeps the ascending lexicographic
order of the global sort. -/
theorem C1_post_order (t : List PolyEntry) :
    (∀ j, j < (make_book_post t).length → ∀ i, i ≤ j →
        (ent (make_book_post t) i).key ≤ (ent (make_book_post t) j).key) ∧
    (∀ a b, IsMaxRun (make_book_post t) a b → b < (make_book_post t).length →
      2 < b - a → ∀ i, i + 1 < b → a ≤ i →
        wmGe (ent (make_book_post t) i) (ent (make_book_post t) (i + 1))) ∧
    (∀ a b, IsMaxRun (make_book_post t) a b →
      (b = (make_book_post t).length ∨ b - a ≤ 2) → ∀ i, i + 1 < b → a ≤ i →
        pleLe (ent (make_book_post t) i) (ent (make_book_post t) (i + 1))) := by
  obtain ⟨hlen, hkeys, hproc, hfin⟩ := make_book_post_spec t
  have hsorted : List.Sorted pleLe (List.insertionSort pleLe t) :=
    List.sorted_insertionSort pleLe t
  have hrun_iff : ∀ a b, IsMaxRun (make_book_post t) a b ↔
      IsMaxRun (List.insertionSort pleLe t) a b :=
    fun a b => isMaxRun_trans _ _ a b hlen hkeys
  refine ⟨?_, ?_, ?_⟩
  · intro j hj i hij
    rw [hkeys i, hkeys j]
    exact sorted_key_mono _ hsorted i j hij (by omega)
  · intro a b hrun hblt hbig i h1 h2
    have hrs := (hrun_iff a b).mp hrun
    have hp := hproc a b hrs (by omega)
    unfold segProp at hp
    rw [if_pos hbig] at hp
    have hsort2 : List.Sorted wmGe (seg (make_book_post t) a b) := by
      rw [hp]
      exact List.sorted_insertionSort wmGe _
    have hseglen : (seg (make_book_post t) a b).length = b - a :=
      seg_length _ a b (by omega)
    have e1 : ent (make_book_post t) i =
        (seg (make_book_post t) a b).getD (i - a) ⟨0, 0, 0, 0⟩ :=
      ent_seg _ a b i h2 (by omega)
    have e2 : ent (make_book_post t) (i + 1) =
        (seg (make_book_post t) a b).getD (i + 1 - a) ⟨0, 0, 0, 0⟩ :=
      ent_seg _ a b (i + 1) (by omega) h1
    rw [e1, e2]
    exact sorted_getD _ hsort2 (i - a) (i + 1 - a) (by omega) (by omega)
  · intro a b hrun hcase i h1 h2
    have hrs := (hrun_iff a b).mp hrun
    have hseg : seg (make_book_post t) a b = seg (List.insertionSort pleLe t) a b := by
      rcases Nat.lt_or_ge b (List.insertionSort pleLe t).length with hblt | hbge
      · rcases hcase with hb | hsmall
        · omega
        · have hp := hproc a b hrs hblt
          unfold segProp at hp
          rw [if_neg (by omega)] at hp
          exact hp
      · have hbeq : b = (List.insertionSort pleLe t).length := by
          have := hrs.2.1
          omega
        exact hfin a b hrs hbeq
    have e1 : ent (make_book_post t) i = ent (List.insertionSort pleLe t) i :=
      ent_eq_of_seg_eq _ _ a b i hseg h2 (by omega)
    have e2 : ent (make_book_post t) (i + 1) = ent (List.insertionSort pleLe t) (i + 1) :=
      ent_eq_of_seg_eq _ _ a b (i + 1) hseg (by omega) h1
    rw [e1, e2]
    have hlen2 : i + 1 < (List.insertionSort pleLe t).length := by
      have := hrs.2.1
      omega
    exact sorted_getD _ hsorted i (i + 1) (by omega) hlen2

/-- Claim C2 (amended): after the full lexicographic sort, every maximal
equal-key run of length above 2 *that is followed by a further record
with a different key* has each entry's weight replaced by
`count(move_in_run) * 0xFFFF / run_length` and is re-sorted by
descending `(weight, move)`; runs of length 1 or 2 — and the final run
of the table, of any length, which the pass never fires on — are left
with `weight = 1` (given weight 1 on every input record, as emitted by
`parse_game`). -/
theorem C2_reweighting (t : List PolyEntry) (hw : ∀ x ∈ t, x.weight = 1) :
    (∀ a b, IsMaxRun (make_book_post t) a b → b < (make_book_post t).length →
      2 < b - a →
      (∀ i, i < b → a ≤ i →
        (ent (make_book_post t) i).weight =
          ((seg (make_book_post t) a b).countP
            (fun x => x.move == (ent (make_book_post t) i).move)) * 0xFFFF / (b - a)) ∧
      (∀ i, i + 1 < b → a ≤ i →
        wmGe (ent (make_book_post t) i) (ent (make_book_post t) (i + 1)))) ∧
    (∀ a b, IsMaxRun (make_book_post t) a b →
      (b = (make_book_post t).length ∨ b - a ≤ 2) →
      ∀ i, i < b → a ≤ i → (ent (make_book_post t) i).weight = 1) := by
  obtain ⟨hlen, hkeys, hproc, hfin⟩ := make_book_post_spec t
  have hsorted : List.Sorted pleLe (List.insertionSort pleLe t) :=
    List.sorted_insertionSort pleLe t
  have hrun_iff : ∀ a b, IsMaxRun (make_book_post t) a b ↔
      IsMaxRun (List.insertionSort pleLe t) a b :=
    fun a b => isMaxRun_trans _ _ a b hlen hkeys
  have hws : ∀ i, i < (List.insertionSort pleLe t).length →
      (ent (List.insertionSort pleLe t) i).weight = 1 := by
    intro i hi
    have hm : ent (List.insertionSort pleLe t) i ∈ List.insertionSort pleLe t :=
      ent_mem _ i hi
    rw [List.mem_insertionSort] at hm
    exact hw _ hm
  constructor
  · intro a b hrun hblt hbig
    have hrs := (hrun_iff a b).mp hrun
    have hp := hproc a b hrs (by omega)
    unfold segProp at hp
    rw [if_pos hbig] at hp
    have hseglen : (seg (make_book_post t) a b).length = b - a :=
      seg_length _ a b (by omega)
    constructor
    · intro i h1 h2
      have e1 : ent (make_book_post t) i =
          (seg (make_book_post t) a b).getD (i - a) ⟨0, 0, 0, 0⟩ :=
        ent_seg _ a b i h2 h1
      have hperm : (seg (make_book_post t) a b).Perm
          ((seg (List.insertionSort pleLe t) a b).map
            (reweight (seg (List.insertionSort pleLe t) a b) (b - a))) := by
        rw [hp]
        exact List.perm_insertionSort wmGe _
      have hmem0 : (seg (make_book_post t) a b).getD (i - a) ⟨0, 0, 0, 0⟩ ∈
          seg (make_book_post t) a b :=
        getD_mem _ (i - a) (by omega)
      have hmem := hperm.mem_iff.mp hmem0
      obtain ⟨y, hy, hxy⟩ := List.mem_map.mp hmem
      have hEw : (ent (make_book_post t) i).weight =
          ((seg (List.insertionSort pleLe t) a b).countP
            (fun x => x.move == y.move)) * 0xFFFF / (b - a) := by
        rw [e1, ← hxy]
        rfl
      have hEm : (ent (make_book_post t) i).move = y.move := by
        rw [e1, ← hxy]
        rfl
      have hcnt : (seg (make_book_post t) a b).countP
            (fun x => x.move == (ent (make_book_post t) i).move) =
          (seg (List.insertionSort pleLe t) a b).countP
            (fun x => x.move == (ent (make_book_post t) i).move) := by
        rw [hperm.countP_eq]
        rw [List.countP_map]
        rfl
      rw [hEw, hcnt, hEm]
    · intro i h1 h2
      have hsort2 : List.Sorted wmGe (seg (make_book_post t) a b) := by
        rw [hp]
        exact List.sorted_insertionSort wmGe _
      have e1 : ent (make_book_post t) i =
          (seg (make_book_post t) a b).getD (i - a) ⟨0, 0, 0, 0⟩ :=
        ent_seg _ a b i h2 (by omega)
      have e2 : ent (make_book_post t) (i + 1) =
          (seg (make_book_post t) a b).getD (i + 1 - a) ⟨0, 0, 0, 0⟩ :=
        ent_seg _ a b (i + 1) (by omega) h1
      rw [e1, e2]
      exact sorted_getD _ hsort2 (i - a) (i + 1 - a) (by omega) (by omega)
  · intro a b hrun hcase i h1 h2
    have hrs := (hrun_iff a b).mp hrun
    have hseg : seg (make_book_post t) a b = seg (List.insertionSort pleLe t) a b := by
      rcases Nat.lt_or_ge b (List.insertionSort pleLe t).length with hblt | hbge
      · rcases hcase with hb | hsmall
        · omega
        · have hp := hproc a b hrs hblt
          unfold segProp at hp
          rw [if_neg (by omega)] at hp
          exact hp
      · have hbeq : b = (List.insertionSort pleLe t).length := by
          have := hrs.2.1
          omega
        exact hfin a b hrs hbeq
    have e1 : ent (make_book_post t) i = ent (List.insertionSort pleLe t) i :=
      ent_eq_of_seg_eq _ _ a b i hseg h2 h1
    rw [e1]
    apply hws
    have := hrs.2.1
    omega

/-- Counterexample to C1 as stated: a table of two records with equal
key, equal weight and *increasing* move.  The per-run pass never fires
(the only run is final and short), so the table keeps the ascending
lexicographic order of the global sort; the claim's tie-break demands
non-increasing move within the key, which fails here. -/
theorem C1_counterexample :
    make_book_post [⟨5, 2, 1, 0⟩, ⟨5, 1, 1, 0⟩] = [⟨5, 1, 1, 0⟩, ⟨5, 2, 1, 0⟩] ∧
    IsMaxRun (make_book_post [⟨5, 2, 1, 0⟩, ⟨5, 1, 1, 0⟩]) 0 2 ∧
    ¬ wmGe (ent (make_book_post [⟨5, 2, 1, 0⟩, ⟨5, 1, 1, 0⟩]) 0)
        (ent (make_book_post [⟨5, 2, 1, 0⟩, ⟨5, 1, 1, 0⟩]) 1) := by
  decide

/-- Witness for C1 on `bookWitnessTable`: keys non-decreasing across the
table, descending `(weight, move)` inside the re-weighted run, ascending
lexicographic order inside the untouched final run. -/
theorem C1_witness :
    (ent (make_book_post bookWitnessTable) 0).key ≤
      (ent (make_book_post bookWitnessTable) 3).key ∧
    wmGe (ent (make_book_post bookWitnessTable) 1) (ent (make_book_post bookWitnessTable) 2) ∧
    pleLe (ent (make_book_post bookWitnessTable) 4)
      (ent (make_book_post bookWitnessTable) 5) :=
  ⟨(C1_post_order bookWitnessTable).1 3 (by decide) 0 (by decide),
   (C1_post_order bookWitnessTable).2.1 0 4 (by decide) (by decide) (by decide) 1
     (by decide) (by decide),
   (C1_post_order bookWitnessTable).2.2 4 6 (by decide) (Or.inl (by decide)) 4
     (by decide) (by decide)⟩

/-- Counterexample to C2 as stated: a single maximal run of three records
with equal key — of length at least 3, so the claim requires its weights
to become `count * 0xFFFF / 3 = 21845` — but the run is the final one,
the pass never fires, and every weight stays 1. -/
theorem C2_counterexample :
    make_book_post [⟨5, 2, 1, 0⟩, ⟨5, 1, 1, 0⟩, ⟨5, 3, 1, 0⟩] =
      [⟨5, 1, 1, 0⟩, ⟨5, 2, 1, 0⟩, ⟨5, 3, 1, 0⟩] ∧
    IsMaxRun (make_book_post [⟨5, 2, 1, 0⟩, ⟨5, 1, 1, 0⟩, ⟨5, 3, 1, 0⟩]) 0 3 ∧
    (ent (make_book_post [⟨5, 2, 1, 0⟩, ⟨5, 1, 1, 0⟩, ⟨5, 3, 1, 0⟩]) 0).weight = 1 ∧
    (1 : Nat) ≠ 1 * 0xFFFF / 3 := by
  decide

/-- Witness for C2 on `bookWitnessTable`: the frequency formula inside
the re-weighted run, weight 1 inside the untouched final run. -/
theorem C2_witness :
    (ent (make_book_post bookWitnessTable) 0).weight =
      ((seg (make_book_post bookWitnessTable) 0 4).countP
        (fun x => x.move == (ent (make_book_post bookWitnessTable) 0).move)) *
        0xFFFF / (4 - 0) ∧
    (ent (make_book_post bookWitnessTable) 4).weight = 1 :=
  ⟨((C2_reweighting bookWitnessTable (by decide)).1 0 4 (by decide) (by decide)
      (by decide)).1 0 (by decide) (by decide),
   (C2_reweighting bookWitnessTable (by decide)).2 4 6 (by decide) (Or.inl (by decide)) 4
     (by decide) (by decide)⟩
